import Mathlib

/-!
Verification development for the json-formatter pipeline: a shallow embedding
of the tokenizer (src/tokenizer.rs), the recursive-descent parser
(src/parser.rs), the pretty-printer (src/formatter.rs) and the entry point
`format_json` (src/lib.rs), together with theorems settling the behavioural
claims made about them.

Modelling conventions:
* Rust `f64` number payloads are represented by a type parameter `α` together
  with explicit `parseF64 : String → Option α` (the `str::parse::<f64>` call)
  and `numToString : α → String` (the `Display` rendering) functions; IEEE
  floating point itself is not modelled.  Claims that depend on concrete
  number values are stated generically, or carry exactly the re-parse
  side-condition that the specification itself states.
* Rust panics (the `unwrap` inside the unicode-escape branch, the
  `panic` calls in the formatter helpers) are modelled as explicit
  `panicked` / `none` outcomes.
* `std::process::exit(1)` in `format_json` is modelled as an explicit
  `exit 1` outcome.
* The parser's unbounded mutual recursion is modelled with a fuel parameter
  that strictly decreases on every call; `parser` supplies `2 * length + 2`
  fuel, which is proven sufficient for every input the claims quantify over.
-/

namespace JsonFormatter

/-- Tokenizer errors, mirroring `JsonTokenizeError` in src/tokenizer.rs. -/
inductive JsonTokenizeError where
  | unexpectedLiteral (s : String)
  | unexpectedCharacter (c : Char)
  | unexpectedEndOfInput
  | invalidEscapeCharacter (s : String)
  | invalidNumberLiteral (s : String)
deriving DecidableEq

/-- Outcome of a tokenizer computation: an ordinary `Ok` value, an ordinary
`Err` return, or a Rust panic (reachable through the `unwrap()` in the
unicode-escape branch of `tokenize_string`). -/
inductive TRes (β : Type) where
  | ok (b : β)
  | error (e : JsonTokenizeError)
  | panicked
deriving DecidableEq

/-- Lexical tokens, mirroring `JsonToken` in src/tokenizer.rs.  The `f64`
payload of `Number` is the type parameter `α`. -/
inductive JsonToken (α : Type) where
  | leftSquareBracket
  | leftCurlyBracket
  | rightSquareBracket
  | rightCurlyBracket
  | colon
  | comma
  | true
  | false
  | null
  | string (s : String)
  | number (n : α)
deriving DecidableEq

/-- Parsed JSON values, mirroring `JsonValue` in src/parser.rs. -/
inductive JsonValue (α : Type) where
  | null
  | bool (b : Bool)
  | number (n : α)
  | string (s : String)
  | array (vs : List (JsonValue α))
  | object (entries : List (String × JsonValue α))

/-- Parser errors, mirroring `JsonParserError` in src/parser.rs. -/
inductive JsonParserError (α : Type) where
  | unexpectedToken (t : JsonToken α)
  | unexpectedEndOfInput
deriving DecidableEq

/-- The tagged-union error type of src/error.rs: a parse error or a tokenize
error. -/
inductive Error (α : Type) where
  | parse (e : JsonParserError α)
  | tokenize (e : JsonTokenizeError)
deriving DecidableEq

variable {α : Type}

/-! ## Tokenizer (src/tokenizer.rs) -/

/-- The whitespace characters skipped by `tokenize`. -/
def isJsonWhitespace (c : Char) : Bool :=
  c == ' ' || c == '\n' || c == '\t' || c == '\r'

/-- Rust's `'0'..='9'` range pattern. -/
def isDigitChar (c : Char) : Bool := '0' ≤ c && c ≤ '9'

/-- The characters greedily accumulated by `tokenize_number`. -/
def isNumberChar (c : Char) : Bool :=
  isDigitChar c || c == '-' || c == '+' || c == 'e' || c == 'E' || c == '.'

/-- The characters that terminate the bareword accumulation loop of
`tokenize_literal`. -/
def isLiteralBreak (c : Char) : Bool :=
  c == '[' || c == ']' || c == '\x7b' || c == '\x7d' || c == ':' || c == ',' ||
    isJsonWhitespace c

/-- Rust's `char::is_digit(16)`. -/
def isHexDigitChar (c : Char) : Bool :=
  isDigitChar c || ('a' ≤ c && c ≤ 'f') || ('A' ≤ c && c ≤ 'F')

/-- Numeric value of a hex digit. -/
def hexDigitVal (c : Char) : Nat :=
  if isDigitChar c then c.toNat - '0'.toNat
  else if 'a' ≤ c && c ≤ 'f' then c.toNat - 'a'.toNat + 10
  else c.toNat - 'A'.toNat + 10

/-- Model of `u32::from_str_radix(s, 16)`: an optional leading `+` sign is
accepted, then at least one hex digit is required; any other character (that
includes a leading `-`, rejected for an unsigned target type) yields `Err`,
modelled as `none`.  Overflow cannot occur at the call site, which passes at
most four digits. -/
def fromStrRadix16 (s : String) : Option Nat :=
  let ds := match s.data with
    | '+' :: rest => rest
    | rest => rest
  if ds.isEmpty then none
  else if ds.all isHexDigitChar then
    some (ds.foldl (fun a c => 16 * a + hexDigitVal c) 0)
  else none

/-- The string sub-scanner `tokenize_string`, entered after the opening quote
has been consumed; `acc` is the accumulated decoded payload.  Faithful to the
source, including: the scanning loop falling through at end of input and
returning `Ok` (an unterminated string is accepted), and the `unwrap()` panic
when the four collected unicode-escape characters are not all hex digits.
The bounded collection loop of the unicode-escape branch (peek; stop before a
double quote; otherwise consume, stopping after four characters) is unrolled
into its at most four iterations so that the recursion stays structural. -/
def tokenizeString : List Char → String → TRes (String × List Char)
  | [], acc => .ok (acc, [])
  | c :: cs, acc =>
    if c = '"' then .ok (acc, cs)
    else if c = '\\' then
      match cs with
      | [] => .error .unexpectedEndOfInput
      | e :: cs2 =>
        if e = '"' then tokenizeString cs2 (acc.push '\x22')
        else if e = '\\' then tokenizeString cs2 (acc.push '\x5c')
        else if e = '/' then tokenizeString cs2 (acc.push '\x2f')
        else if e = 'b' then tokenizeString cs2 (acc.push '\x08')
        else if e = 'f' then tokenizeString cs2 (acc.push '\x0c')
        else if e = 'n' then tokenizeString cs2 (acc.push '\x0a')
        else if e = 'r' then tokenizeString cs2 (acc.push '\x0d')
        else if e = 't' then tokenizeString cs2 (acc.push '\x09')
        else if e = 'u' then
          match cs2 with
          | [] => .error (.invalidEscapeCharacter "")
          | c1 :: cs3 =>
            if c1 = '"' then .error (.invalidEscapeCharacter "")
            else match cs3 with
            | [] => .error (.invalidEscapeCharacter ⟨[c1]⟩)
            | c2 :: cs4 =>
              if c2 = '"' then .error (.invalidEscapeCharacter ⟨[c1]⟩)
              else match cs4 with
              | [] => .error (.invalidEscapeCharacter ⟨[c1, c2]⟩)
              | c3 :: cs5 =>
                if c3 = '"' then .error (.invalidEscapeCharacter ⟨[c1, c2]⟩)
                else match cs5 with
                | [] => .error (.invalidEscapeCharacter ⟨[c1, c2, c3]⟩)
                | c4 :: cs6 =>
                  if c4 = '"' then .error (.invalidEscapeCharacter ⟨[c1, c2, c3]⟩)
                  else
                    match fromStrRadix16 ⟨[c1, c2, c3, c4]⟩ with
                    | none => .panicked
                    | some val =>
                      if val.isValidChar then
                        tokenizeString cs6 (acc.push (Char.ofNat val))
                      else .error (.invalidEscapeCharacter ⟨[c1, c2, c3, c4]⟩)
        else .error (.invalidEscapeCharacter (String.singleton e))
    else tokenizeString cs (acc.push c)
termination_by structural cs _ => cs

theorem tokenizeString_length_le :
    ∀ (cs : List Char) (acc s : String) (rest : List Char),
      tokenizeString cs acc = .ok (s, rest) → rest.length ≤ cs.length := by
  intro cs acc
  induction cs, acc using tokenizeString.induct
  all_goals intro s rest h
  all_goals rw [tokenizeString.eq_def] at h
  all_goals simp at h
  any_goals (obtain ⟨-, h2⟩ := h; subst h2; simp)
  any_goals (rename_i ih; have h9 := ih _ _ h; simp only [List.length_cons] at *; omega)
  any_goals simp_all
  any_goals omega
  all_goals
    rename_i hnv
  all_goals
    rw [if_neg (by simp only [Nat.isValidChar]; omega)] at h
  all_goals simp at h

/-- The number sub-scanner's accumulation loop in `tokenize_number`. -/
def collectNumber : List Char → String → String × List Char
  | [], acc => (acc, [])
  | c :: cs, acc =>
    if isNumberChar c then collectNumber cs (acc.push c) else (acc, c :: cs)

theorem collectNumber_length_le :
    ∀ (cs : List Char) (acc : String), (collectNumber cs acc).2.length ≤ cs.length
  | [], _ => Nat.le_refl _
  | c :: cs, acc => by
    simp only [collectNumber]
    split
    · exact Nat.le_succ_of_le (collectNumber_length_le cs (acc.push c))
    · exact Nat.le_refl _

/-- The number sub-scanner `tokenize_number`: accumulate number characters
greedily, then attempt to parse the accumulated text as an `f64`. -/
def tokenizeNumber (parseF64 : String → Option α) (cs : List Char) :
    TRes (JsonToken α × List Char) :=
  match collectNumber cs "" with
  | (txt, rest) =>
    match parseF64 txt with
    | some n => .ok (.number n, rest)
    | none => .error (.invalidNumberLiteral txt)

theorem tokenizeNumber_length_le (parseF64 : String → Option α) (c : Char)
    (cs : List Char) (t : JsonToken α) (rest : List Char)
    (hc : isNumberChar c = true)
    (h : tokenizeNumber parseF64 (c :: cs) = .ok (t, rest)) :
    rest.length ≤ cs.length := by
  have hstep : collectNumber (c :: cs) "" = collectNumber cs ("".push c) := by
    simp [collectNumber, hc]
  rcases hres : collectNumber cs ("".push c) with ⟨txt, rem⟩
  have hlen := collectNumber_length_le cs ("".push c)
  rw [hres] at hlen hstep
  simp only at hlen
  simp only [tokenizeNumber, hstep] at h
  split at h
  · simp only [TRes.ok.injEq, Prod.mk.injEq] at h
    rw [← h.2]
    exact hlen
  · exact absurd h (by simp)

/-- The bareword accumulation loop in `tokenize_literal`. -/
def collectLiteral : List Char → String → String × List Char
  | [], acc => (acc, [])
  | c :: cs, acc =>
    if isLiteralBreak c then (acc, c :: cs) else collectLiteral cs (acc.push c)

theorem collectLiteral_length_le :
    ∀ (cs : List Char) (acc : String), (collectLiteral cs acc).2.length ≤ cs.length
  | [], _ => Nat.le_refl _
  | c :: cs, acc => by
    simp only [collectLiteral]
    split
    · exact Nat.le_refl _
    · exact Nat.le_succ_of_le (collectLiteral_length_le cs (acc.push c))

/-- The bareword sub-scanner `tokenize_literal`: accumulate until a structural
character, whitespace or end of input, then match against exactly `true`,
`false`, `null`. -/
def tokenizeLiteral (cs : List Char) : TRes (JsonToken α × List Char) :=
  match collectLiteral cs "" with
  | (lit, rest) =>
    if lit = "true" then .ok (.true, rest)
    else if lit = "false" then .ok (.false, rest)
    else if lit = "null" then .ok (.null, rest)
    else .error (.unexpectedLiteral lit)

theorem tokenizeLiteral_length_le (c : Char) (cs : List Char) (t : JsonToken α)
    (rest : List Char) (h : tokenizeLiteral (c :: cs) = .ok (t, rest)) :
    rest.length ≤ cs.length := by
  by_cases hb : isLiteralBreak c = true
  · have hcl : collectLiteral (c :: cs) "" = ("", c :: cs) := by
      simp [collectLiteral, hb]
    simp only [tokenizeLiteral, hcl] at h
    simp at h
  · have hstep : collectLiteral (c :: cs) "" = collectLiteral cs ("".push c) := by
      simp only [collectLiteral]
      rw [if_neg]
      simpa using hb
    rcases hres : collectLiteral cs ("".push c) with ⟨lit, rem⟩
    have hlen := collectLiteral_length_le cs ("".push c)
    rw [hres] at hlen hstep
    simp only at hlen
    simp only [tokenizeLiteral, hstep] at h
    split at h
    · simp only [TRes.ok.injEq, Prod.mk.injEq] at h
      rw [← h.2]
      exact hlen
    · split at h
      · simp only [TRes.ok.injEq, Prod.mk.injEq] at h
        rw [← h.2]
        exact hlen
      · split at h
        · simp only [TRes.ok.injEq, Prod.mk.injEq] at h
          rw [← h.2]
          exact hlen
        · exact absurd h (by simp)

/-- Pushing one token in front of the result of tokenizing the remaining
input (the `tokens.push` followed by the next loop iteration). -/
def consTok (t : JsonToken α) : TRes (List (JsonToken α)) → TRes (List (JsonToken α))
  | .ok ts => .ok (t :: ts)
  | .error e => .error e
  | .panicked => .panicked

/-- The main scanning loop of `tokenize`, dispatching on the peeked character:
whitespace is skipped, structural characters become single tokens, a double
quote enters the string sub-scanner, a minus sign or digit enters the number
sub-scanner, and anything else falls through to the bareword sub-scanner. -/
def tokenizeChars (parseF64 : String → Option α) : List Char → TRes (List (JsonToken α))
  | [] => .ok []
  | c :: cs =>
    if isJsonWhitespace c then tokenizeChars parseF64 cs
    else if c = '[' then consTok .leftSquareBracket (tokenizeChars parseF64 cs)
    else if c = '\x7b' then consTok .leftCurlyBracket (tokenizeChars parseF64 cs)
    else if c = ']' then consTok .rightSquareBracket (tokenizeChars parseF64 cs)
    else if c = '\x7d' then consTok .rightCurlyBracket (tokenizeChars parseF64 cs)
    else if c = ':' then consTok .colon (tokenizeChars parseF64 cs)
    else if c = ',' then consTok .comma (tokenizeChars parseF64 cs)
    else if c = '"' then
      match hs : tokenizeString cs "" with
      | .ok (s, rest) => consTok (.string s) (tokenizeChars parseF64 rest)
      | .error e => .error e
      | .panicked => .panicked
    else if hn : (c == '-' || isDigitChar c) = true then
      match hm : tokenizeNumber parseF64 (c :: cs) with
      | .ok (t, rest) => consTok t (tokenizeChars parseF64 rest)
      | .error e => .error e
      | .panicked => .panicked
    else
      match hl : tokenizeLiteral (c :: cs) with
      | .ok (t, rest) => consTok t (tokenizeChars parseF64 rest)
      | .error e => .error e
      | .panicked => .panicked
termination_by cs => cs.length
decreasing_by
  all_goals simp only [List.length_cons]
  all_goals try omega
  · exact Nat.lt_succ_of_le (tokenizeString_length_le _ _ _ _ hs)
  · refine Nat.lt_succ_of_le (tokenizeNumber_length_le parseF64 _ _ _ _ ?_ hm)
    simp only [isNumberChar]
    rcases Bool.or_eq_true_iff.mp hn with h | h
    · simp [h]
    · simp [h]
  · exact Nat.lt_succ_of_le (tokenizeLiteral_length_le _ _ _ _ hl)

/-- The tokenizer entry point `tokenize` (src/tokenizer.rs): scan the input
characters left to right. -/
def tokenize (parseF64 : String → Option α) (s : String) : TRes (List (JsonToken α)) :=
  tokenizeChars parseF64 s.data

/-- Proof-infrastructure copy of `tokenizeChars` that recurses structurally on
an explicit step counter, so that concrete runs of the tokenizer reduce inside
the kernel; `tokenizeCharsFuel_eq` proves it agrees with `tokenizeChars`
whenever the counter exceeds the input length (the value returned on counter
exhaustion is irrelevant then). -/
def tokenizeCharsFuel (parseF64 : String → Option α) :
    Nat → List Char → TRes (List (JsonToken α))
  | 0, _ => .error .unexpectedEndOfInput
  | _ + 1, [] => .ok []
  | f + 1, c :: cs =>
    if isJsonWhitespace c then tokenizeCharsFuel parseF64 f cs
    else if c = '[' then consTok .leftSquareBracket (tokenizeCharsFuel parseF64 f cs)
    else if c = '\x7b' then consTok .leftCurlyBracket (tokenizeCharsFuel parseF64 f cs)
    else if c = ']' then consTok .rightSquareBracket (tokenizeCharsFuel parseF64 f cs)
    else if c = '\x7d' then consTok .rightCurlyBracket (tokenizeCharsFuel parseF64 f cs)
    else if c = ':' then consTok .colon (tokenizeCharsFuel parseF64 f cs)
    else if c = ',' then consTok .comma (tokenizeCharsFuel parseF64 f cs)
    else if c = '"' then
      match tokenizeString cs "" with
      | .ok (s, rest) => consTok (.string s) (tokenizeCharsFuel parseF64 f rest)
      | .error e => .error e
      | .panicked => .panicked
    else if (c == '-' || isDigitChar c) = true then
      match tokenizeNumber parseF64 (c :: cs) with
      | .ok (t, rest) => consTok t (tokenizeCharsFuel parseF64 f rest)
      | .error e => .error e
      | .panicked => .panicked
    else
      match tokenizeLiteral (c :: cs) with
      | .ok (t, rest) => consTok t (tokenizeCharsFuel parseF64 f rest)
      | .error e => .error e
      | .panicked => .panicked
termination_by structural f _ => f

set_option maxHeartbeats 1600000 in
theorem tokenizeCharsFuel_eq (parseF64 : String → Option α) :
    ∀ (f : Nat) (cs : List Char), cs.length < f →
      tokenizeCharsFuel parseF64 f cs = tokenizeChars parseF64 cs := by
  intro f
  induction f with
  | zero => intro cs h; omega
  | succ f ih =>
    intro cs h
    match cs with
    | [] =>
      rw [tokenizeChars.eq_def]
      rfl
    | c :: cs' =>
      simp only [List.length_cons, Nat.succ_lt_succ_iff] at h
      rw [tokenizeChars.eq_def]
      simp only [tokenizeCharsFuel]
      split_ifs with h1 h2 h3 h4 h5 h6 h7 h8 h9
      · exact ih cs' h
      · rw [ih cs' h]
      · rw [ih cs' h]
      · rw [ih cs' h]
      · rw [ih cs' h]
      · rw [ih cs' h]
      · rw [ih cs' h]
      · rcases hts : tokenizeString cs' "" with ⟨s, rest⟩ | e | -
        · have hle := tokenizeString_length_le cs' "" s rest hts
          simp only [hts]
          rw [ih rest (by omega)]
        · simp only [hts]
        · simp only [hts]
      · rcases htn : tokenizeNumber parseF64 (c :: cs') with ⟨t, rest⟩ | e | -
        · have hle : rest.length ≤ cs'.length := by
            refine tokenizeNumber_length_le parseF64 c cs' t rest ?_ htn
            simp only [isNumberChar]
            rcases Bool.or_eq_true_iff.mp h9 with hx | hx
            · simp [hx]
            · simp [hx]
          simp only [htn]
          rw [ih rest (by omega)]
        · simp only [htn]
        · simp only [htn]
      · rcases htl : tokenizeLiteral (c :: cs') with ⟨t, rest⟩ | e | -
        · have hle := tokenizeLiteral_length_le c cs' t rest htl
          simp only [htl]
          rw [ih rest (by omega)]
        · simp only [htl]
        · simp only [htl]

/-- Computation rule for the tokenizer: evaluating `tokenize` equals running
the step-counted copy with `length + 1` steps. -/
theorem tokenize_eval (parseF64 : String → Option α) (s : String) :
    tokenize parseF64 s = tokenizeCharsFuel parseF64 (s.data.length + 1) s.data :=
  (tokenizeCharsFuel_eq parseF64 (s.data.length + 1) s.data (Nat.lt_succ_self _)).symm

/-! ## Parser (src/parser.rs)

The Rust parser is a set of mutually recursive functions over a shared
`Peekable` token cursor, modelled here as explicit state passing of the
remaining token list.  The unrestricted Rust recursion is modelled with a
step counter (`fuel`) that strictly decreases on every call, keeping every
definition structurally recursive; `parser` supplies `2 * length + 2` steps,
which the lemmas below prove sufficient for the inputs the claims are about.
-/

/-- Outcome of a parser computation: `Ok`, `Err`, or exhaustion of the step
counter (an artifact of the embedding, not a behaviour of the source). -/
inductive PRes (α : Type) (β : Type) where
  | ok (b : β)
  | error (e : JsonParserError α)
  | fuelOut
deriving DecidableEq

mutual

/-- `parser_value`: peek the current token; literal tokens produce a leaf and
consume it, `[` delegates to array parsing and `\x7b` to object parsing (both
without consuming), any other token is `UnexpectedToken`, and an exhausted
stream is `UnexpectedEndOfInput`. -/
def parserValue : Nat → List (JsonToken α) → PRes α (JsonValue α × List (JsonToken α))
  | 0, _ => .fuelOut
  | f + 1, ts =>
    match ts with
    | [] => .error .unexpectedEndOfInput
    | t :: rest =>
      match t with
      | .null => .ok (.null, rest)
      | .true => .ok (.bool true, rest)
      | .false => .ok (.bool false, rest)
      | .number n => .ok (.number n, rest)
      | .string s => .ok (.string s, rest)
      | .leftSquareBracket => parserArray f ts
      | .leftCurlyBracket => parserObject f ts
      | _ => .error (.unexpectedToken t)

/-- `parser_array`: consume the `[` unconditionally, return the empty array on
an immediate `]`, otherwise parse a first value and enter the element loop. -/
def parserArray : Nat → List (JsonToken α) → PRes α (JsonValue α × List (JsonToken α))
  | 0, _ => .fuelOut
  | f + 1, ts =>
    match ts.tail with
    | [] => .error .unexpectedEndOfInput
    | t :: rest2 =>
      match t with
      | .rightSquareBracket => .ok (.array [], rest2)
      | _ =>
        match parserValue f ts.tail with
        | .ok (v, rest) => parserArrayLoop f [v] rest
        | .error e => .error e
        | .fuelOut => .fuelOut

/-- The `while` loop of `parser_array`: after at least one element, a comma
must be followed by another value and `]` closes the array; any other token is
`UnexpectedToken` and running out of tokens is `UnexpectedEndOfInput`. -/
def parserArrayLoop :
    Nat → List (JsonValue α) → List (JsonToken α) →
      PRes α (JsonValue α × List (JsonToken α))
  | 0, _, _ => .fuelOut
  | f + 1, acc, ts =>
    match ts with
    | [] => .error .unexpectedEndOfInput
    | t :: rest =>
      match t with
      | .comma =>
        match parserValue f rest with
        | .ok (v, rest2) => parserArrayLoop f (acc ++ [v]) rest2
        | .error e => .error e
        | .fuelOut => .fuelOut
      | .rightSquareBracket => .ok (.array acc, rest)
      | _ => .error (.unexpectedToken t)

/-- `parser_object`: consume the `\x7b` unconditionally, return the empty
object on an immediate `\x7d`, parse a first `String`-keyed member otherwise
(any other token is `UnexpectedToken`), then enter the member loop. -/
def parserObject : Nat → List (JsonToken α) → PRes α (JsonValue α × List (JsonToken α))
  | 0, _ => .fuelOut
  | f + 1, ts =>
    match ts.tail with
    | [] => .error .unexpectedEndOfInput
    | t :: rest2 =>
      match t with
      | .rightCurlyBracket => .ok (.object [], rest2)
      | .string _ =>
        match parserObjectKeyValue f ts.tail with
        | .ok (kv, rest) => parserObjectLoop f [kv] rest
        | .error e => .error e
        | .fuelOut => .fuelOut
      | _ => .error (.unexpectedToken t)

/-- `parser_object_key_value`: consume a `String` key, then require a `:`
(both a different token and end of input yield `UnexpectedEndOfInput`, the
source compares the consumed token against `Some(Colon)`), then parse the
member value. -/
def parserObjectKeyValue :
    Nat → List (JsonToken α) →
      PRes α ((String × JsonValue α) × List (JsonToken α))
  | 0, _ => .fuelOut
  | f + 1, ts =>
    match ts with
    | [] => .error .unexpectedEndOfInput
    | t :: rest =>
      match t with
      | .string key =>
        match rest with
        | .colon :: rest2 =>
          match parserValue f rest2 with
          | .ok (v, rest3) => .ok ((key, v), rest3)
          | .error e => .error e
          | .fuelOut => .fuelOut
        | _ => .error .unexpectedEndOfInput
      | _ => .error (.unexpectedToken t)

/-- The `while` loop of `parser_object`: after at least one member, a comma
must be followed by a `String`-keyed member (an exhausted stream after the
comma falls back to the loop condition and yields `UnexpectedEndOfInput`),
and `\x7d` closes the object. -/
def parserObjectLoop :
    Nat → List (String × JsonValue α) → List (JsonToken α) →
      PRes α (JsonValue α × List (JsonToken α))
  | 0, _, _ => .fuelOut
  | f + 1, acc, ts =>
    match ts with
    | [] => .error .unexpectedEndOfInput
    | t :: rest =>
      match t with
      | .comma =>
        match rest with
        | [] => .error .unexpectedEndOfInput
        | t2 :: _ =>
          match t2 with
          | .string _ =>
            match parserObjectKeyValue f rest with
            | .ok (kv, rest2) => parserObjectLoop f (acc ++ [kv]) rest2
            | .error e => .error e
            | .fuelOut => .fuelOut
          | _ => .error (.unexpectedToken t2)
      | .rightCurlyBracket => .ok (.object acc, rest)
      | _ => .error (.unexpectedToken t)

end

/-- The parser entry point `parser` (src/parser.rs): parse one value from the
front of the token sequence and return it, discarding the rest of the stream
without any check that it is empty. -/
def parser (ts : List (JsonToken α)) : PRes α (JsonValue α) :=
  match parserValue (2 * ts.length + 2) ts with
  | .ok (v, _) => .ok v
  | .error e => .error e
  | .fuelOut => .fuelOut

/-! ## Formatter (src/formatter.rs) -/

/-- Rust's `str::repeat`. -/
def strRepeat (s : String) : Nat → String
  | 0 => ""
  | n + 1 => s ++ strRepeat s n

/-- Rust's `Vec::join` on strings. -/
def joinSep (sep : String) : List String → String
  | [] => ""
  | [x] => x
  | x :: y :: xs => x ++ sep ++ joinSep sep (y :: xs)

mutual

/-- `format_value`: scalars render directly (strings are wrapped in quotes
with no re-escaping), containers are delegated, with the indent level passed
through. -/
def formatValue (numToString : α → String) : JsonValue α → Nat → Option String
  | .null, _ => some "null"
  | .bool b, _ => some (if b then "true" else "false")
  | .number n, _ => some (numToString n)
  | .string s, _ => some ("\"" ++ s ++ "\"")
  | .object entries, i => formatObject numToString (.object entries) i
  | .array vs, i => formatArray numToString (.array vs) i
termination_by v _ => (sizeOf v, 1)
decreasing_by
  all_goals simp_wf
  all_goals omega

/-- `format_object`: re-match the value; an empty object renders as the two
braces, a non-empty one as brace, newline, the joined entries, newline,
closing indent and brace.  The `_ => none` arm is the source's
`panic!("Expected object")` branch. -/
def formatObject (numToString : α → String) : JsonValue α → Nat → Option String
  | .object entries, i =>
    if entries.length = 0 then some "\x7b\x7d"
    else
      match formatEntries numToString entries i with
      | some parts =>
        some ("\x7b\n" ++ joinSep ",\n" parts ++ "\n" ++ strRepeat "  " (i - 1) ++ "\x7d")
      | none => none
  | _, _ => none
termination_by v _ => (sizeOf v, 0)
decreasing_by
  all_goals simp_wf
  all_goals omega

/-- The entry rendering `map` inside `format_object`: each member becomes
`indent, quoted key (not re-escaped), colon, space, value at level + 1`. -/
def formatEntries (numToString : α → String) :
    List (String × JsonValue α) → Nat → Option (List String)
  | [], _ => some []
  | (k, v) :: rest, i =>
    match formatValue numToString v (i + 1), formatEntries numToString rest i with
    | some sv, some ss =>
      some ((strRepeat "  " i ++ "\"" ++ k ++ "\": " ++ sv) :: ss)
    | _, _ => none
termination_by l _ => (sizeOf l, 0)
decreasing_by
  all_goals simp_wf
  all_goals omega

/-- `format_array`: the array analogue of `format_object`; the `_ => none` arm
is the source's `panic!("Expected array")` branch. -/
def formatArray (numToString : α → String) : JsonValue α → Nat → Option String
  | .array vs, i =>
    if vs.length = 0 then some "[]"
    else
      match formatItems numToString vs i with
      | some parts =>
        some ("[\n" ++ joinSep ",\n" parts ++ "\n" ++ strRepeat "  " (i - 1) ++ "]")
      | none => none
  | _, _ => none
termination_by v _ => (sizeOf v, 0)
decreasing_by
  all_goals simp_wf
  all_goals omega

/-- The element rendering `map` inside `format_array`. -/
def formatItems (numToString : α → String) :
    List (JsonValue α) → Nat → Option (List String)
  | [], _ => some []
  | v :: rest, i =>
    match formatValue numToString v (i + 1), formatItems numToString rest i with
    | some sv, some ss => some ((strRepeat "  " i ++ sv) :: ss)
    | _, _ => none
termination_by l _ => (sizeOf l, 0)
decreasing_by
  all_goals simp_wf
  all_goals omega

end

/-- The formatter entry point `format` (src/formatter.rs): format the value at
indent level 1. -/
def format (numToString : α → String) (v : JsonValue α) : Option String :=
  formatValue numToString v 1

/-! ## Entry point (src/lib.rs) -/

/-- Outcome of running `format_json`: the formatted text, the process
terminating through `std::process::exit(code)`, a Rust panic propagating out,
or (an embedding artifact, unreachable for the step counts supplied) step
exhaustion. -/
inductive FormatJsonOutcome where
  | ok (s : String)
  | exit (code : Nat)
  | panicked
  | fuelOut
deriving DecidableEq

/-- The entry point `format_json` (src/lib.rs): tokenize, then parse, then
format.  On a tokenize or parse error the source prints a diagnostic to
stderr and calls `std::process::exit(1)` — modelled as the `exit 1` outcome;
no error value is returned to the caller. -/
def format_json (parseF64 : String → Option α) (numToString : α → String)
    (content : String) : FormatJsonOutcome :=
  match tokenize parseF64 content with
  | .error _ => .exit 1
  | .panicked => .panicked
  | .ok tokens =>
    match parser tokens with
    | .error _ => .exit 1
    | .fuelOut => .fuelOut
    | .ok parsed =>
      match format numToString parsed with
      | some out => .ok out
      | none => .panicked

/-! ## Concrete number instance for closed witness statements

The abstract `f64` payload is instantiated with integer-valued numbers
rendered and re-parsed in plain decimal — exactly the behaviour of Rust's
`f64` `Display`/`parse` on small integers. -/

/-- Decimal value of a digit string. -/
def digitsVal (ds : List Char) : Nat :=
  ds.foldl (fun a c => 10 * a + (c.toNat - '0'.toNat)) 0

/-- Integer-only model of `str::parse::<f64>`: an optional minus sign
followed by at least one decimal digit. -/
def parseF64Int (s : String) : Option Int :=
  match s.data with
  | '-' :: ds =>
    if ds.isEmpty then none
    else if ds.all Char.isDigit then some (-(digitsVal ds : Int)) else none
  | ds =>
    if ds.isEmpty then none
    else if ds.all Char.isDigit then some ((digitsVal ds : Nat) : Int) else none

/-- Integer model of the `f64` `Display` rendering. -/
def intToString (n : Int) : String := toString n

/-! ## Auxiliary definitions for statements and proofs -/

mutual

/-- Total rendering function: the text `format_value` produces on every value.
`formatValue_eq_fmt` below proves the two agree — which is exactly the fact
that the formatter's panic branches are unreachable.  Structurally recursive,
so concrete renderings reduce inside the kernel. -/
def fmtV (numToString : α → String) : JsonValue α → Nat → String
  | .null, _ => "null"
  | .bool b, _ => if b then "true" else "false"
  | .number n, _ => numToString n
  | .string s, _ => "\"" ++ s ++ "\""
  | .object entries, i =>
    if entries.length = 0 then "\x7b\x7d"
    else
      "\x7b\n" ++ joinSep ",\n" (fmtVEntries numToString entries i) ++ "\n" ++
        strRepeat "  " (i - 1) ++ "\x7d"
  | .array vs, i =>
    if vs.length = 0 then "[]"
    else
      "[\n" ++ joinSep ",\n" (fmtVItems numToString vs i) ++ "\n" ++
        strRepeat "  " (i - 1) ++ "]"
termination_by structural v _ => v

/-- Rendered object members (see `formatEntries`). -/
def fmtVEntries (numToString : α → String) :
    List (String × JsonValue α) → Nat → List String
  | [], _ => []
  | (k, v) :: rest, i =>
    (strRepeat "  " i ++ "\"" ++ k ++ "\": " ++ fmtV numToString v (i + 1)) ::
      fmtVEntries numToString rest i
termination_by structural l _ => l

/-- Rendered array elements (see `formatItems`). -/
def fmtVItems (numToString : α → String) : List (JsonValue α) → Nat → List String
  | [], _ => []
  | v :: rest, i =>
    (strRepeat "  " i ++ fmtV numToString v (i + 1)) :: fmtVItems numToString rest i
termination_by structural l _ => l

end

mutual

/-- The token sequence of a value's canonical rendering; the round-trip and
duplicate-key claims relate `tokenize`, `parser` and the formatter through
it. -/
def tokensOf : JsonValue α → List (JsonToken α)
  | .null => [.null]
  | .bool b => [if b then JsonToken.true else JsonToken.false]
  | .number n => [.number n]
  | .string s => [.string s]
  | .array vs => .leftSquareBracket :: (tokensOfItems vs ++ [.rightSquareBracket])
  | .object entries =>
    .leftCurlyBracket :: (tokensOfMembers entries ++ [.rightCurlyBracket])
termination_by structural v => v

/-- Comma-separated token sequences of array elements. -/
def tokensOfItems : List (JsonValue α) → List (JsonToken α)
  | [] => []
  | [v] => tokensOf v
  | v :: v2 :: vs => tokensOf v ++ .comma :: tokensOfItems (v2 :: vs)
termination_by structural l => l

/-- Comma-separated token sequences of object members. -/
def tokensOfMembers : List (String × JsonValue α) → List (JsonToken α)
  | [] => []
  | [(k, v)] => .string k :: .colon :: tokensOf v
  | (k, v) :: m2 :: ms =>
    .string k :: .colon :: (tokensOf v ++ .comma :: tokensOfMembers (m2 :: ms))
termination_by structural l => l

end

/-- String content with no double quote and no backslash is emitted verbatim
by the formatter (which never re-escapes) and scanned back verbatim by the
tokenizer. -/
def strNoSpecial (s : String) : Bool :=
  s.data.all fun c => c != '"' && c != '\\'

/-- The rendering of a number re-tokenizes as exactly that number: nonempty
text whose first character dispatches to the number sub-scanner, consisting
solely of number-scanner characters, and whose re-parse returns the same
value — the round-trip claim's own bit-exact re-parse proviso. -/
def numReparses [DecidableEq α] (parseF64 : String → Option α)
    (numToString : α → String) (n : α) : Bool :=
  match h : (numToString n).data with
  | [] => false
  | c :: _ =>
    (c == '-' || isDigitChar c) && (numToString n).data.all isNumberChar &&
      decide (parseF64 (numToString n) = some n)

mutual

/-- Round-trip safety of a value tree: every string and key is free of
unescaped special characters and every number re-parses bit-exactly — the
two provisos stated by the round-trip claim. -/
def safeVal [DecidableEq α] (parseF64 : String → Option α)
    (numToString : α → String) : JsonValue α → Bool
  | .null => true
  | .bool _ => true
  | .number n => numReparses parseF64 numToString n
  | .string s => strNoSpecial s
  | .array vs => safeItems parseF64 numToString vs
  | .object entries => safeMembers parseF64 numToString entries
termination_by structural v => v

/-- `safeVal` on every element. -/
def safeItems [DecidableEq α] (parseF64 : String → Option α)
    (numToString : α → String) : List (JsonValue α) → Bool
  | [] => true
  | v :: vs => safeVal parseF64 numToString v && safeItems parseF64 numToString vs
termination_by structural l => l

/-- `strNoSpecial` on every key and `safeVal` on every member value. -/
def safeMembers [DecidableEq α] (parseF64 : String → Option α)
    (numToString : α → String) : List (String × JsonValue α) → Bool
  | [] => true
  | (k, v) :: ms =>
    strNoSpecial k && safeVal parseF64 numToString v &&
      safeMembers parseF64 numToString ms
termination_by structural l => l

end

/-! ## Formatter lemmas -/

/-- Unfolding equation of `formatEntries` on a cons cell. -/
theorem formatEntries_cons_eq (nts : α → String) (k : String) (v : JsonValue α)
    (rest : List (String × JsonValue α)) (i : Nat) :
    formatEntries nts ((k, v) :: rest) i =
      match formatValue nts v (i + 1), formatEntries nts rest i with
      | some sv, some ss =>
        some ((strRepeat "  " i ++ "\"" ++ k ++ "\": " ++ sv) :: ss)
      | _, _ => none := by
  rw [formatEntries.eq_def]

/-- Unfolding equation of `formatItems` on a cons cell. -/
theorem formatItems_cons_eq (nts : α → String) (v : JsonValue α)
    (rest : List (JsonValue α)) (i : Nat) :
    formatItems nts (v :: rest) i =
      match formatValue nts v (i + 1), formatItems nts rest i with
      | some sv, some ss => some ((strRepeat "  " i ++ sv) :: ss)
      | _, _ => none := by
  rw [formatItems.eq_def]

/-- Size-bounded package for `formatValue_eq_fmt`, proved by induction on the
size bound (the nested `List` recursion of `JsonValue` makes direct structural
induction unavailable). -/
theorem format_eq_fmt_aux (nts : α → String) :
    ∀ n : Nat,
      (∀ (v : JsonValue α) (i : Nat), sizeOf v ≤ n →
        formatValue nts v i = some (fmtV nts v i)) ∧
      (∀ (l : List (String × JsonValue α)) (i : Nat), sizeOf l ≤ n →
        formatEntries nts l i = some (fmtVEntries nts l i)) ∧
      (∀ (l : List (JsonValue α)) (i : Nat), sizeOf l ≤ n →
        formatItems nts l i = some (fmtVItems nts l i)) := by
  intro n
  induction n with
  | zero =>
    refine ⟨fun v i hv => absurd hv ?_, fun l i hl => absurd hl ?_,
      fun l i hl => absurd hl ?_⟩
    · cases v <;> simp
    · cases l <;> simp
    · cases l <;> simp
  | succ n ih =>
    obtain ⟨ihv, ihe, ihi⟩ := ih
    refine ⟨?_, ?_, ?_⟩
    · intro v i hv
      match v with
      | .null => simp only [formatValue.eq_def, fmtV.eq_def]
      | .bool b => simp only [formatValue.eq_def, fmtV.eq_def]
      | .number m => simp only [formatValue.eq_def, fmtV.eq_def]
      | .string str => simp only [formatValue.eq_def, fmtV.eq_def]
      | .object entries =>
        have he := ihe entries i (by simp at hv; omega)
        simp only [formatValue.eq_def, formatObject.eq_def, fmtV.eq_def, he]
        split <;> rfl
      | .array vs =>
        have hi := ihi vs i (by simp at hv; omega)
        simp only [formatValue.eq_def, formatArray.eq_def, fmtV.eq_def, hi]
        split <;> rfl
    · intro l i hl
      match l with
      | [] => simp only [formatEntries.eq_def, fmtVEntries.eq_def]
      | (k, v) :: rest =>
        have h1 := ihv v (i + 1) (by simp at hl; omega)
        have h2 := ihe rest i (by simp at hl; omega)
        rw [formatEntries_cons_eq, h1, h2]
        rfl
    · intro l i hl
      match l with
      | [] => simp only [formatItems.eq_def, fmtVItems.eq_def]
      | v :: rest =>
        have h1 := ihv v (i + 1) (by simp at hl; omega)
        have h2 := ihi rest i (by simp at hl; omega)
        rw [formatItems_cons_eq, h1, h2]
        rfl

/-- The formatter never reaches its panic branches: `format_value` succeeds on
every value and produces the total rendering `fmtV`. -/
theorem formatValue_eq_fmt (nts : α → String) (v : JsonValue α) (i : Nat) :
    formatValue nts v i = some (fmtV nts v i) :=
  (format_eq_fmt_aux nts (sizeOf v)).1 v i (Nat.le_refl _)

/-- `format` always succeeds, with the rendering at indent level 1. -/
theorem format_eq_fmt (nts : α → String) (v : JsonValue α) :
    format nts v = some (fmtV nts v 1) :=
  formatValue_eq_fmt nts v 1

/-! ## Parser lemmas -/

/-- Separated element tokens: what follows the first element of a non-empty
array rendering, one `,`-prefixed element token block per remaining element. -/
def itemsSep : List (JsonValue α) → List (JsonToken α)
  | [] => []
  | v :: vs => .comma :: (tokensOf v ++ itemsSep vs)

/-- Separated member tokens: the object analogue of `itemsSep`. -/
def membersSep : List (String × JsonValue α) → List (JsonToken α)
  | [] => []
  | (k, v) :: ms => .comma :: .string k :: .colon :: (tokensOf v ++ membersSep ms)

theorem tokensOfItems_eq (v : JsonValue α) :
    ∀ tl : List (JsonValue α), tokensOfItems (v :: tl) = tokensOf v ++ itemsSep tl
  | [] => by simp [tokensOfItems, itemsSep]
  | v2 :: vs => by
    simp [tokensOfItems, itemsSep, tokensOfItems_eq v2 vs]

theorem tokensOfMembers_eq (k : String) (v : JsonValue α) :
    ∀ tl : List (String × JsonValue α),
      tokensOfMembers ((k, v) :: tl) = .string k :: .colon :: (tokensOf v ++ membersSep tl)
  | [] => by simp [tokensOfMembers, membersSep]
  | (k2, v2) :: ms => by
    simp [tokensOfMembers, membersSep, tokensOfMembers_eq k2 v2 ms]

/-- Reduction of `parserArray` past its initial peek when the first token
after the bracket is not `]`. -/
theorem parserArray_step (f : Nat) (x t : JsonToken α) (ts0 : List (JsonToken α))
    (ht : t ≠ .rightSquareBracket) :
    parserArray (f + 1) (x :: t :: ts0) =
      match parserValue f (t :: ts0) with
      | .ok (v, rest) => parserArrayLoop f [v] rest
      | .error e => .error e
      | .fuelOut => .fuelOut := by
  cases t <;> simp [parserArray] <;> exact absurd rfl ht

/-- Fuel monotonicity and trailing-token stability of successful parses,
packaged over the six mutually recursive parser functions: a parse that
succeeds with some fuel succeeds identically with more fuel, and tokens
appended beyond the consumed prefix simply carry through to the remainder. -/
theorem parser_mono_append_aux :
    ∀ f : Nat,
      (∀ g, f ≤ g → ∀ (ts extra : List (JsonToken α)) (v : JsonValue α) rest,
        parserValue f ts = .ok (v, rest) →
        parserValue g (ts ++ extra) = .ok (v, rest ++ extra)) ∧
      (∀ g, f ≤ g → ∀ (ts extra : List (JsonToken α)) (v : JsonValue α) rest,
        parserArray f ts = .ok (v, rest) →
        parserArray g (ts ++ extra) = .ok (v, rest ++ extra)) ∧
      (∀ g, f ≤ g → ∀ acc (ts extra : List (JsonToken α)) (v : JsonValue α) rest,
        parserArrayLoop f acc ts = .ok (v, rest) →
        parserArrayLoop g acc (ts ++ extra) = .ok (v, rest ++ extra)) ∧
      (∀ g, f ≤ g → ∀ (ts extra : List (JsonToken α)) (v : JsonValue α) rest,
        parserObject f ts = .ok (v, rest) →
        parserObject g (ts ++ extra) = .ok (v, rest ++ extra)) ∧
      (∀ g, f ≤ g → ∀ (ts extra : List (JsonToken α)) kv rest,
        parserObjectKeyValue f ts = .ok (kv, rest) →
        parserObjectKeyValue g (ts ++ extra) = .ok (kv, rest ++ extra)) ∧
      (∀ g, f ≤ g → ∀ acc (ts extra : List (JsonToken α)) (v : JsonValue α) rest,
        parserObjectLoop f acc ts = .ok (v, rest) →
        parserObjectLoop g acc (ts ++ extra) = .ok (v, rest ++ extra)) := by
  intro f
  induction f with
  | zero =>
    refine ⟨?_, ?_, ?_, ?_, ?_, ?_⟩
    · intro g _ ts extra v rest h; simp [parserValue] at h
    · intro g _ ts extra v rest h; simp [parserArray] at h
    · intro g _ acc ts extra v rest h; simp [parserArrayLoop] at h
    · intro g _ ts extra v rest h; simp [parserObject] at h
    · intro g _ ts extra kv rest h; simp [parserObjectKeyValue] at h
    · intro g _ acc ts extra v rest h; simp [parserObjectLoop] at h
  | succ f ih =>
    obtain ⟨ihv, iha, ihal, iho, ihkv, ihol⟩ := ih
    refine ⟨?_, ?_, ?_, ?_, ?_, ?_⟩
    · -- parserValue
      intro g hg ts extra v rest h
      match g, hg with
      | g + 1, hg =>
        have hfg : f ≤ g := Nat.le_of_succ_le_succ hg
        match ts with
        | [] => simp [parserValue] at h
        | t :: ts1 =>
          cases t
          case leftSquareBracket =>
            simp only [parserValue, List.cons_append] at h ⊢
            exact iha g hfg _ extra _ _ h
          case leftCurlyBracket =>
            simp only [parserValue, List.cons_append] at h ⊢
            exact iho g hfg _ extra _ _ h
          all_goals simp_all [parserValue]
    · -- parserArray
      intro g hg ts extra v rest h
      match g, hg with
      | g + 1, hg =>
        have hfg : f ≤ g := Nat.le_of_succ_le_succ hg
        match ts with
        | [] => simp [parserArray] at h
        | t0 :: ts1 =>
          match ts1 with
          | [] => simp [parserArray] at h
          | t1 :: ts2 =>
            by_cases hrsb : t1 = .rightSquareBracket
            · subst hrsb
              simp only [parserArray, List.tail_cons, PRes.ok.injEq, Prod.mk.injEq,
                List.cons_append] at h ⊢
              obtain ⟨rfl, rfl⟩ := h
              exact ⟨rfl, rfl⟩
            · rw [show (t0 :: t1 :: ts2) ++ extra = t0 :: t1 :: (ts2 ++ extra) from rfl]
              rw [parserArray_step f t0 t1 ts2 hrsb] at h
              rw [parserArray_step g t0 t1 (ts2 ++ extra) hrsb]
              rcases hpv : parserValue f (t1 :: ts2) with ⟨v0, rest0⟩ | e | -
              · rw [hpv] at h
                have := ihv g hfg (t1 :: ts2) extra v0 rest0 hpv
                rw [show (t1 :: ts2) ++ extra = t1 :: (ts2 ++ extra) from rfl] at this
                rw [this]
                exact ihal g hfg [v0] rest0 extra v rest h
              · rw [hpv] at h; simp at h
              · rw [hpv] at h; simp at h
    · -- parserArrayLoop
      intro g hg acc ts extra v rest h
      match g, hg with
      | g + 1, hg =>
        have hfg : f ≤ g := Nat.le_of_succ_le_succ hg
        match ts with
        | [] => simp [parserArrayLoop] at h
        | t :: ts1 =>
          cases t
          case comma =>
            simp only [parserArrayLoop, List.cons_append] at h ⊢
            rcases hpv : parserValue f ts1 with ⟨v0, rest0⟩ | e | -
            · rw [hpv] at h
              rw [ihv g hfg ts1 extra v0 rest0 hpv]
              exact ihal g hfg (acc ++ [v0]) rest0 extra v rest h
            · rw [hpv] at h; simp at h
            · rw [hpv] at h; simp at h
          all_goals simp_all [parserArrayLoop]
    · -- parserObject
      intro g hg ts extra v rest h
      match g, hg with
      | g + 1, hg =>
        have hfg : f ≤ g := Nat.le_of_succ_le_succ hg
        match ts with
        | [] => simp [parserObject] at h
        | t0 :: ts1 =>
          match ts1 with
          | [] => simp [parserObject] at h
          | t1 :: ts2 =>
            cases t1
            case rightCurlyBracket =>
              simp only [parserObject, List.tail_cons, PRes.ok.injEq, Prod.mk.injEq,
                List.cons_append] at h ⊢
              obtain ⟨rfl, rfl⟩ := h
              exact ⟨rfl, rfl⟩
            case string k0 =>
              simp only [parserObject, List.tail_cons, List.cons_append] at h ⊢
              rcases hkv : parserObjectKeyValue f (JsonToken.string k0 :: ts2) with
                ⟨kv0, rest0⟩ | e | -
              · rw [hkv] at h
                have hstep := ihkv g hfg (JsonToken.string k0 :: ts2) extra kv0 rest0 hkv
                rw [show (JsonToken.string k0 :: ts2) ++ extra =
                  JsonToken.string k0 :: (ts2 ++ extra) from rfl] at hstep
                rw [hstep]
                exact ihol g hfg [kv0] rest0 extra v rest h
              · rw [hkv] at h
                exact absurd h (by simp)
              · rw [hkv] at h
                exact absurd h (by simp)
            all_goals
              simp only [parserObject, List.tail_cons, List.cons_append] at h
            all_goals exact absurd h (by simp)
    · -- parserObjectKeyValue
      intro g hg ts extra kv rest h
      match g, hg with
      | g + 1, hg =>
        have hfg : f ≤ g := Nat.le_of_succ_le_succ hg
        match ts with
        | [] => simp [parserObjectKeyValue] at h
        | t0 :: ts1 =>
          cases t0
          case string k0 =>
            match ts1 with
            | [] => simp [parserObjectKeyValue] at h
            | t1 :: ts2 =>
              cases t1
              case colon =>
                simp only [parserObjectKeyValue, List.cons_append] at h ⊢
                rcases hpv : parserValue f ts2 with ⟨v0, rest0⟩ | e | -
                · rw [hpv] at h
                  rw [ihv g hfg ts2 extra v0 rest0 hpv]
                  simp only [PRes.ok.injEq, Prod.mk.injEq] at h ⊢
                  obtain ⟨rfl, rfl⟩ := h
                  exact ⟨rfl, rfl⟩
                · rw [hpv] at h
                  exact absurd h (by simp)
                · rw [hpv] at h
                  exact absurd h (by simp)
              all_goals
                simp only [parserObjectKeyValue, List.cons_append] at h
              all_goals exact absurd h (by simp)
          all_goals
            simp only [parserObjectKeyValue, List.cons_append] at h
          all_goals exact absurd h (by simp)
    · -- parserObjectLoop
      intro g hg acc ts extra v rest h
      match g, hg with
      | g + 1, hg =>
        have hfg : f ≤ g := Nat.le_of_succ_le_succ hg
        match ts with
        | [] => simp [parserObjectLoop] at h
        | t :: ts1 =>
          cases t
          case rightCurlyBracket =>
            simp only [parserObjectLoop, PRes.ok.injEq, Prod.mk.injEq,
              List.cons_append] at h ⊢
            obtain ⟨rfl, rfl⟩ := h
            exact ⟨rfl, rfl⟩
          case comma =>
            match ts1 with
            | [] => simp [parserObjectLoop] at h
            | t1 :: ts2 =>
              cases t1
              case string k0 =>
                simp only [parserObjectLoop, List.cons_append] at h ⊢
                rcases hkv : parserObjectKeyValue f (JsonToken.string k0 :: ts2) with
                  ⟨kv0, rest0⟩ | e | -
                · rw [hkv] at h
                  have hstep := ihkv g hfg (JsonToken.string k0 :: ts2) extra kv0 rest0 hkv
                  rw [show (JsonToken.string k0 :: ts2) ++ extra =
                    JsonToken.string k0 :: (ts2 ++ extra) from rfl] at hstep
                  rw [hstep]
                  exact ihol g hfg (acc ++ [kv0]) rest0 extra v rest h
                · rw [hkv] at h
                  exact absurd h (by simp)
                · rw [hkv] at h
                  exact absurd h (by simp)
              all_goals
                simp only [parserObjectLoop, List.cons_append] at h
              all_goals exact absurd h (by simp)
          all_goals
            simp only [parserObjectLoop, List.cons_append] at h
          all_goals exact absurd h (by simp)

/-- Every value's token sequence starts with a token, and never with `]`. -/
theorem tokensOf_head_cons (v : JsonValue α) :
    ∃ (t : JsonToken α) (ts' : List (JsonToken α)),
      tokensOf v = t :: ts' ∧ t ≠ .rightSquareBracket := by
  match v with
  | .null => exact ⟨.null, [], rfl, by simp⟩
  | .bool b =>
    cases b
    · exact ⟨.false, [], rfl, by simp⟩
    · exact ⟨.true, [], rfl, by simp⟩
  | .number m => exact ⟨.number m, [], rfl, by simp⟩
  | .string str => exact ⟨.string str, [], rfl, by simp⟩
  | .array vs => exact ⟨.leftSquareBracket, _, rfl, by simp⟩
  | .object entries => exact ⟨.leftCurlyBracket, _, rfl, by simp⟩

/-- A value's token sequence is nonempty. -/
theorem tokensOf_length_pos (v : JsonValue α) : 0 < (tokensOf v).length := by
  obtain ⟨t, ts', hv, -⟩ := tokensOf_head_cons v
  simp [hv]

/-- Size-bounded package: the parser maps the token sequence of any value
back to that value, consuming exactly that sequence, whenever the fuel is at
least twice the sequence length; with the two loop statements needed by the
containers. -/
theorem parse_tokensOf_aux :
    ∀ n : Nat,
      (∀ v : JsonValue α, sizeOf v ≤ n → ∀ (rest : List (JsonToken α)) (f : Nat),
        2 * (tokensOf v).length ≤ f →
        parserValue f (tokensOf v ++ rest) = .ok (v, rest)) ∧
      (∀ tl : List (JsonValue α), sizeOf tl ≤ n →
        ∀ (acc : List (JsonValue α)) (rest : List (JsonToken α)) (f : Nat),
        2 * ((itemsSep tl).length + 1) ≤ f →
        parserArrayLoop f acc (itemsSep tl ++ .rightSquareBracket :: rest) =
          .ok (.array (acc ++ tl), rest)) ∧
      (∀ tl : List (String × JsonValue α), sizeOf tl ≤ n →
        ∀ (acc : List (String × JsonValue α)) (rest : List (JsonToken α)) (f : Nat),
        2 * ((membersSep tl).length + 1) ≤ f →
        parserObjectLoop f acc (membersSep tl ++ .rightCurlyBracket :: rest) =
          .ok (.object (acc ++ tl), rest)) := by
  intro n
  induction n with
  | zero =>
    refine ⟨fun v hv => absurd hv ?_, fun l hl => absurd hl ?_, fun l hl => absurd hl ?_⟩
    · cases v <;> simp
    · cases l <;> simp
    · cases l <;> simp
  | succ n ih =>
    obtain ⟨ihv, ihal, ihol⟩ := ih
    refine ⟨?_, ?_, ?_⟩
    · intro v hv rest f hf
      match v with
      | .null =>
        simp only [tokensOf, List.length_cons, List.length_nil] at hf
        obtain ⟨f1, rfl⟩ : ∃ f1, f = f1 + 1 := ⟨f - 1, by omega⟩
        simp [tokensOf, parserValue]
      | .bool b =>
        simp only [tokensOf, List.length_cons, List.length_nil] at hf
        obtain ⟨f1, rfl⟩ : ∃ f1, f = f1 + 1 := ⟨f - 1, by omega⟩
        cases b <;> simp [tokensOf, parserValue]
      | .number m =>
        simp only [tokensOf, List.length_cons, List.length_nil] at hf
        obtain ⟨f1, rfl⟩ : ∃ f1, f = f1 + 1 := ⟨f - 1, by omega⟩
        simp [tokensOf, parserValue]
      | .string str =>
        simp only [tokensOf, List.length_cons, List.length_nil] at hf
        obtain ⟨f1, rfl⟩ : ∃ f1, f = f1 + 1 := ⟨f - 1, by omega⟩
        simp [tokensOf, parserValue]
      | .array [] =>
        simp only [tokensOf, tokensOfItems, List.nil_append, List.length_cons,
          List.length_nil] at hf
        obtain ⟨f2, rfl⟩ : ∃ f2, f = f2 + 2 := ⟨f - 2, by omega⟩
        simp [tokensOf, tokensOfItems, parserValue, parserArray]
      | .array (w :: tl) =>
        have hlen : (tokensOf (JsonValue.array (w :: tl))).length =
            2 + (tokensOf w).length + (itemsSep tl).length := by
          simp [tokensOf, tokensOfItems_eq]
          omega
        have hpos := tokensOf_length_pos w
        rw [hlen] at hf
        obtain ⟨f2, rfl⟩ : ∃ f2, f = f2 + 2 := ⟨f - 2, by omega⟩
        have hshape : tokensOf (JsonValue.array (w :: tl)) ++ rest =
            JsonToken.leftSquareBracket ::
              (tokensOf w ++ (itemsSep tl ++ JsonToken.rightSquareBracket :: rest)) := by
          simp [tokensOf, tokensOfItems_eq]
        rw [hshape]
        have hsize : sizeOf w ≤ n ∧ sizeOf tl ≤ n := by
          simp at hv
          omega
        obtain ⟨t, ts', htv, htne⟩ := tokensOf_head_cons w
        rw [show parserValue (f2 + 2)
            (JsonToken.leftSquareBracket ::
              (tokensOf w ++ (itemsSep tl ++ JsonToken.rightSquareBracket :: rest))) =
            parserArray (f2 + 1)
              (JsonToken.leftSquareBracket ::
                (tokensOf w ++ (itemsSep tl ++ JsonToken.rightSquareBracket :: rest)))
          from by simp [parserValue]]
        rw [htv, List.cons_append]
        rw [parserArray_step f2 _ t (ts' ++ (itemsSep tl ++ JsonToken.rightSquareBracket :: rest)) htne]
        rw [show t :: (ts' ++ (itemsSep tl ++ JsonToken.rightSquareBracket :: rest)) =
          tokensOf w ++ (itemsSep tl ++ JsonToken.rightSquareBracket :: rest) from by
            rw [htv, List.cons_append]]
        rw [ihv w hsize.1 _ f2 (by omega)]
        exact ihal tl hsize.2 [w] rest f2 (by omega)
      | .object [] =>
        simp only [tokensOf, tokensOfMembers, List.nil_append, List.length_cons,
          List.length_nil] at hf
        obtain ⟨f2, rfl⟩ : ∃ f2, f = f2 + 2 := ⟨f - 2, by omega⟩
        simp [tokensOf, tokensOfMembers, parserValue, parserObject]
      | .object ((k, w) :: tl) =>
        have hlen : (tokensOf (JsonValue.object ((k, w) :: tl))).length =
            4 + (tokensOf w).length + (membersSep tl).length := by
          simp [tokensOf, tokensOfMembers_eq]
          omega
        have hpos := tokensOf_length_pos w
        rw [hlen] at hf
        obtain ⟨f3, rfl⟩ : ∃ f3, f = f3 + 3 := ⟨f - 3, by omega⟩
        have hshape : tokensOf (JsonValue.object ((k, w) :: tl)) ++ rest =
            JsonToken.leftCurlyBracket :: JsonToken.string k :: JsonToken.colon ::
              (tokensOf w ++ (membersSep tl ++ JsonToken.rightCurlyBracket :: rest)) := by
          simp [tokensOf, tokensOfMembers_eq]
        rw [hshape]
        have hsize : sizeOf w ≤ n ∧ sizeOf tl ≤ n := by
          simp at hv
          omega
        rw [show parserValue (f3 + 3)
            (JsonToken.leftCurlyBracket :: JsonToken.string k :: JsonToken.colon ::
              (tokensOf w ++ (membersSep tl ++ JsonToken.rightCurlyBracket :: rest))) =
            parserObject (f3 + 2)
              (JsonToken.leftCurlyBracket :: JsonToken.string k :: JsonToken.colon ::
                (tokensOf w ++ (membersSep tl ++ JsonToken.rightCurlyBracket :: rest)))
          from by simp [parserValue]]
        rw [show parserObject (f3 + 2)
            (JsonToken.leftCurlyBracket :: JsonToken.string k :: JsonToken.colon ::
              (tokensOf w ++ (membersSep tl ++ JsonToken.rightCurlyBracket :: rest))) =
            (match parserObjectKeyValue (f3 + 1)
                (JsonToken.string k :: JsonToken.colon ::
                  (tokensOf w ++ (membersSep tl ++ JsonToken.rightCurlyBracket :: rest))) with
              | .ok (kv, rest2) => parserObjectLoop (f3 + 1) [kv] rest2
              | .error e => .error e
              | .fuelOut => .fuelOut)
          from by simp [parserObject]]
        rw [show parserObjectKeyValue (f3 + 1)
            (JsonToken.string k :: JsonToken.colon ::
              (tokensOf w ++ (membersSep tl ++ JsonToken.rightCurlyBracket :: rest))) =
            (match parserValue f3
                (tokensOf w ++ (membersSep tl ++ JsonToken.rightCurlyBracket :: rest)) with
              | .ok (v0, rest3) => .ok ((k, v0), rest3)
              | .error e => .error e
              | .fuelOut => .fuelOut)
          from by simp [parserObjectKeyValue]]
        rw [ihv w hsize.1 _ f3 (by omega)]
        exact ihol tl hsize.2 [(k, w)] rest (f3 + 1) (by omega)
    · intro tl htl acc rest f hf
      match tl with
      | [] =>
        simp only [itemsSep, List.length_nil] at hf
        obtain ⟨f1, rfl⟩ : ∃ f1, f = f1 + 1 := ⟨f - 1, by omega⟩
        simp [itemsSep, parserArrayLoop]
      | w :: tl2 =>
        have hpos := tokensOf_length_pos w
        have hlen : (itemsSep (w :: tl2)).length =
            1 + (tokensOf w).length + (itemsSep tl2).length := by
          simp [itemsSep]
          omega
        rw [hlen] at hf
        obtain ⟨f1, rfl⟩ : ∃ f1, f = f1 + 1 := ⟨f - 1, by omega⟩
        have hsize : sizeOf w ≤ n ∧ sizeOf tl2 ≤ n := by
          simp at htl
          omega
        rw [show itemsSep (w :: tl2) ++ JsonToken.rightSquareBracket :: rest =
            JsonToken.comma ::
              (tokensOf w ++ (itemsSep tl2 ++ JsonToken.rightSquareBracket :: rest)) from by
          simp [itemsSep]]
        rw [show parserArrayLoop (f1 + 1) acc
            (JsonToken.comma ::
              (tokensOf w ++ (itemsSep tl2 ++ JsonToken.rightSquareBracket :: rest))) =
            (match parserValue f1
                (tokensOf w ++ (itemsSep tl2 ++ JsonToken.rightSquareBracket :: rest)) with
              | .ok (v0, rest2) => parserArrayLoop f1 (acc ++ [v0]) rest2
              | .error e => .error e
              | .fuelOut => .fuelOut)
          from by simp [parserArrayLoop]]
        rw [ihv w hsize.1 _ f1 (by omega)]
        have hres := ihal tl2 hsize.2 (acc ++ [w]) rest f1 (by omega)
        rw [List.append_assoc] at hres
        exact hres
    · intro tl htl acc rest f hf
      match tl with
      | [] =>
        simp only [membersSep, List.length_nil] at hf
        obtain ⟨f1, rfl⟩ : ∃ f1, f = f1 + 1 := ⟨f - 1, by omega⟩
        simp [membersSep, parserObjectLoop]
      | (k, w) :: tl2 =>
        have hpos := tokensOf_length_pos w
        have hlen : (membersSep ((k, w) :: tl2)).length =
            3 + (tokensOf w).length + (membersSep tl2).length := by
          simp [membersSep]
          omega
        rw [hlen] at hf
        obtain ⟨f2, rfl⟩ : ∃ f2, f = f2 + 2 := ⟨f - 2, by omega⟩
        have hsize : sizeOf w ≤ n ∧ sizeOf tl2 ≤ n := by
          simp at htl
          omega
        rw [show membersSep ((k, w) :: tl2) ++ JsonToken.rightCurlyBracket :: rest =
            JsonToken.comma :: JsonToken.string k :: JsonToken.colon ::
              (tokensOf w ++ (membersSep tl2 ++ JsonToken.rightCurlyBracket :: rest)) from by
          simp [membersSep]]
        rw [show parserObjectLoop (f2 + 2) acc
            (JsonToken.comma :: JsonToken.string k :: JsonToken.colon ::
              (tokensOf w ++ (membersSep tl2 ++ JsonToken.rightCurlyBracket :: rest))) =
            (match parserObjectKeyValue (f2 + 1)
                (JsonToken.string k :: JsonToken.colon ::
                  (tokensOf w ++ (membersSep tl2 ++ JsonToken.rightCurlyBracket :: rest))) with
              | .ok (kv, rest2) => parserObjectLoop (f2 + 1) (acc ++ [kv]) rest2
              | .error e => .error e
              | .fuelOut => .fuelOut)
          from by simp [parserObjectLoop]]
        rw [show parserObjectKeyValue (f2 + 1)
            (JsonToken.string k :: JsonToken.colon ::
              (tokensOf w ++ (membersSep tl2 ++ JsonToken.rightCurlyBracket :: rest))) =
            (match parserValue f2
                (tokensOf w ++ (membersSep tl2 ++ JsonToken.rightCurlyBracket :: rest)) with
              | .ok (v0, rest3) => .ok ((k, v0), rest3)
              | .error e => .error e
              | .fuelOut => .fuelOut)
          from by simp [parserObjectKeyValue]]
        rw [ihv w hsize.1 _ f2 (by omega)]
        have hres := ihol tl2 hsize.2 (acc ++ [(k, w)]) rest (f2 + 1) (by omega)
        rw [List.append_assoc] at hres
        exact hres

/-- The parser inverts the canonical token sequence of every value. -/
theorem parser_tokensOf (v : JsonValue α) : parser (tokensOf v) = .ok v := by
  have h := (parse_tokensOf_aux (sizeOf v)).1 v (Nat.le_refl _) []
    (2 * (tokensOf v).length + 2) (by omega)
  rw [List.append_nil] at h
  simp [parser, h]

/-! ## Tokenizer scan lemmas for the round trip -/

theorem tokenizeChars_cons_ws (pf : String → Option α) (c : Char)
    (cs : List Char) (h : isJsonWhitespace c = true) :
    tokenizeChars pf (c :: cs) = tokenizeChars pf cs := by
  rw [tokenizeChars.eq_def]
  simp [h]

theorem tokenizeChars_ws_append (pf : String → Option α) :
    ∀ (cs rest : List Char), (∀ c ∈ cs, isJsonWhitespace c = true) →
      tokenizeChars pf (cs ++ rest) = tokenizeChars pf rest
  | [], rest, _ => rfl
  | c :: cs, rest, h => by
    rw [List.cons_append, tokenizeChars_cons_ws pf c _ (h c (by simp))]
    exact tokenizeChars_ws_append pf cs rest fun x hx => h x (by simp [hx])

theorem strRepeat_spaces_ws :
    ∀ (n : Nat), ∀ c ∈ (strRepeat "  " n).data, isJsonWhitespace c = true
  | 0, c, hc => by simp [strRepeat] at hc
  | n + 1, c, hc => by
    simp only [strRepeat, String.data_append] at hc
    rcases List.mem_append.mp hc with h | h
    · simp at h
      simp [h, isJsonWhitespace]
    · exact strRepeat_spaces_ws n c h

theorem tokenizeChars_indent (pf : String → Option α) (n : Nat) (rest : List Char) :
    tokenizeChars pf ((strRepeat "  " n).data ++ rest) = tokenizeChars pf rest :=
  tokenizeChars_ws_append pf _ rest (strRepeat_spaces_ws n)

theorem tokenizeChars_cons_lsb (pf : String → Option α) (cs : List Char) :
    tokenizeChars pf ('[' :: cs) = consTok .leftSquareBracket (tokenizeChars pf cs) := by
  rw [tokenizeChars.eq_def]
  simp [isJsonWhitespace]

theorem tokenizeChars_cons_rsb (pf : String → Option α) (cs : List Char) :
    tokenizeChars pf (']' :: cs) = consTok .rightSquareBracket (tokenizeChars pf cs) := by
  rw [tokenizeChars.eq_def]
  simp [isJsonWhitespace]

theorem tokenizeChars_cons_lcb (pf : String → Option α) (cs : List Char) :
    tokenizeChars pf ('\x7b' :: cs) = consTok .leftCurlyBracket (tokenizeChars pf cs) := by
  rw [tokenizeChars.eq_def]
  simp [isJsonWhitespace]

theorem tokenizeChars_cons_rcb (pf : String → Option α) (cs : List Char) :
    tokenizeChars pf ('\x7d' :: cs) = consTok .rightCurlyBracket (tokenizeChars pf cs) := by
  rw [tokenizeChars.eq_def]
  simp [isJsonWhitespace]

theorem tokenizeChars_cons_colon (pf : String → Option α) (cs : List Char) :
    tokenizeChars pf (':' :: cs) = consTok .colon (tokenizeChars pf cs) := by
  rw [tokenizeChars.eq_def]
  simp [isJsonWhitespace]

theorem tokenizeChars_cons_comma (pf : String → Option α) (cs : List Char) :
    tokenizeChars pf (',' :: cs) = consTok .comma (tokenizeChars pf cs) := by
  rw [tokenizeChars.eq_def]
  simp [isJsonWhitespace]

theorem tokenizeChars_cons_quote (pf : String → Option α) (cs : List Char)
    (s : String) (rest : List Char) (h : tokenizeString cs "" = .ok (s, rest)) :
    tokenizeChars pf ('"' :: cs) = consTok (.string s) (tokenizeChars pf rest) := by
  rw [tokenizeChars.eq_def]
  simp [isJsonWhitespace]
  split
  · rename_i s2 rest2 hs2
    rw [h] at hs2
    simp only [TRes.ok.injEq, Prod.mk.injEq] at hs2
    obtain ⟨rfl, rfl⟩ := hs2
    rfl
  · rename_i e he
    rw [h] at he
    exact absurd he (by simp)
  · rename_i he
    rw [h] at he
    exact absurd he (by simp)

/-- String content free of quotes and backslashes is scanned back verbatim,
with the closing quote consumed. -/
theorem tokenizeString_verbatim :
    ∀ (cs : List Char) (acc : String) (rest : List Char),
      (∀ c ∈ cs, c ≠ '"' ∧ c ≠ '\\') →
      tokenizeString (cs ++ '"' :: rest) acc = .ok (⟨acc.data ++ cs⟩, rest)
  | [], acc, rest, _ => by
    rw [List.nil_append, tokenizeString.eq_def]
    simp
  | c :: cs, acc, rest, h => by
    have hc := h c (by simp)
    rw [show (c :: cs) ++ '"' :: rest = c :: (cs ++ '"' :: rest) from rfl]
    rw [tokenizeString.eq_def]
    simp only [if_neg hc.1, if_neg hc.2]
    rw [tokenizeString_verbatim cs (acc.push c) rest (fun x hx => h x (by simp [hx]))]
    simp [String.push, List.append_assoc]

/-- The remainder begins with a character the number scanner stops at. -/
def numStop : List Char → Prop := fun rest =>
  match rest with
  | [] => True
  | c :: _ => isNumberChar c = false

/-- The number accumulation loop consumes exactly a block of number
characters and stops at the remainder. -/
theorem collectNumber_verbatim :
    ∀ (cs : List Char) (acc : String) (rest : List Char),
      (∀ c ∈ cs, isNumberChar c = true) → numStop rest →
      collectNumber (cs ++ rest) acc = (⟨acc.data ++ cs⟩, rest)
  | [], acc, rest, _, hstop => by
    match rest with
    | [] => simp [collectNumber]
    | c :: rs =>
      simp only [numStop] at hstop
      simp [collectNumber, hstop]
  | c :: cs, acc, rest, h, hstop => by
    rw [show (c :: cs) ++ rest = c :: (cs ++ rest) from rfl]
    simp only [collectNumber, h c (by simp), if_pos]
    rw [collectNumber_verbatim cs (acc.push c) rest (fun x hx => h x (by simp [hx])) hstop]
    simp [String.push, List.append_assoc]

/-- A block of number characters whose re-parse succeeds produces exactly the
corresponding number token. -/
theorem tokenizeNumber_verbatim (pf : String → Option α) (cs rest : List Char)
    (n : α) (hall : ∀ c ∈ cs, isNumberChar c = true) (hstop : numStop rest)
    (hp : pf ⟨cs⟩ = some n) :
    tokenizeNumber pf (cs ++ rest) = .ok (.number n, rest) := by
  simp only [tokenizeNumber, collectNumber_verbatim cs "" rest hall hstop]
  rw [show (⟨("" : String).data ++ cs⟩ : String) = ⟨cs⟩ from rfl]
  rw [hp]

/-- The remainder begins with a character the bareword scanner stops at. -/
def litStop : List Char → Prop := fun rest =>
  match rest with
  | [] => True
  | c :: _ => isLiteralBreak c = true

/-- The bareword accumulation loop consumes exactly a block of non-break
characters and stops at the remainder. -/
theorem collectLiteral_verbatim :
    ∀ (cs : List Char) (acc : String) (rest : List Char),
      (∀ c ∈ cs, isLiteralBreak c = false) → litStop rest →
      collectLiteral (cs ++ rest) acc = (⟨acc.data ++ cs⟩, rest)
  | [], acc, rest, _, hstop => by
    match rest with
    | [] => simp [collectLiteral]
    | c :: rs =>
      simp only [litStop] at hstop
      simp [collectLiteral, hstop]
  | c :: cs, acc, rest, h, hstop => by
    rw [show (c :: cs) ++ rest = c :: (cs ++ rest) from rfl]
    simp only [collectLiteral, h c (by simp), Bool.false_eq_true, if_false]
    rw [collectLiteral_verbatim cs (acc.push c) rest (fun x hx => h x (by simp [hx])) hstop]
    simp [String.push, List.append_assoc]

/-- Delimiters that can follow a rendered value inside formatter output: end
of input, a comma, a newline, or a closing bracket or brace. -/
def DelimChars : List Char → Prop := fun rest =>
  match rest with
  | [] => True
  | c :: _ => c = ',' ∨ c = '\n' ∨ c = ']' ∨ c = '\x7d'

theorem DelimChars.toLitStop {rest : List Char} (h : DelimChars rest) :
    litStop rest := by
  match rest with
  | [] => trivial
  | c :: rs =>
    simp only [DelimChars] at h
    simp only [litStop]
    rcases h with rfl | rfl | rfl | rfl <;> decide

theorem DelimChars.toNumStop {rest : List Char} (h : DelimChars rest) :
    numStop rest := by
  match rest with
  | [] => trivial
  | c :: rs =>
    simp only [DelimChars] at h
    simp only [numStop]
    rcases h with rfl | rfl | rfl | rfl <;> decide

/-- A character that dispatches to the number sub-scanner is not whitespace,
not structural, and not a quote. -/
theorem numHead_facts (c : Char) (h : (c == '-' || isDigitChar c) = true) :
    isJsonWhitespace c = false ∧ c ≠ '[' ∧ c ≠ '\x7b' ∧ c ≠ ']' ∧ c ≠ '\x7d' ∧
      c ≠ ':' ∧ c ≠ ',' ∧ c ≠ '"' := by
  rcases Bool.or_eq_true_iff.mp h with h1 | h1
  · have hc : c = '-' := by simpa using h1
    subst hc
    refine ⟨by decide, by decide, by decide, by decide, by decide, by decide,
      by decide, by decide⟩
  · simp only [isDigitChar, Bool.and_eq_true, decide_eq_true_eq] at h1
    refine ⟨?_, ?_, ?_, ?_, ?_, ?_, ?_, ?_⟩
    · by_contra hw
      rw [Bool.not_eq_false] at hw
      simp only [isJsonWhitespace, Bool.or_eq_true, beq_iff_eq] at hw
      rcases hw with ((rfl | rfl) | rfl) | rfl <;> exact absurd h1 (by decide)
    all_goals (rintro rfl; exact absurd h1 (by decide))

/-- Scanning a number-character block that re-parses to `n`. -/
theorem tokenizeChars_number_block (pf : String → Option α) (c : Char)
    (cs' rest : List Char) (n : α)
    (hhead : (c == '-' || isDigitChar c) = true)
    (hall : ∀ x ∈ c :: cs', isNumberChar x = true) (hstop : numStop rest)
    (hp : pf ⟨c :: cs'⟩ = some n) :
    tokenizeChars pf ((c :: cs') ++ rest) =
      consTok (.number n) (tokenizeChars pf rest) := by
  obtain ⟨hw, h1, h2, h3, h4, h5, h6, h7⟩ := numHead_facts c hhead
  rw [show (c :: cs') ++ rest = c :: (cs' ++ rest) from rfl]
  rw [tokenizeChars.eq_def]
  simp only [hw, Bool.false_eq_true, if_false, if_neg h1, if_neg h2, if_neg h3,
    if_neg h4, if_neg h5, if_neg h6, if_neg h7, hhead, dif_pos]
  have hnum := tokenizeNumber_verbatim pf (c :: cs') rest n hall hstop hp
  rw [show c :: (cs' ++ rest) = (c :: cs') ++ rest from rfl]
  split
  · rename_i t0 rest0 heq
    rw [hnum] at heq
    simp only [TRes.ok.injEq, Prod.mk.injEq] at heq
    obtain ⟨rfl, rfl⟩ := heq
    rfl
  · rename_i e heq
    rw [hnum] at heq
    exact absurd heq (by simp)
  · rename_i heq
    rw [hnum] at heq
    exact absurd heq (by simp)

/-- Scanning the bareword `null`. -/
theorem tokenizeLiteral_null_block (rest : List Char) (hstop : litStop rest) :
    tokenizeLiteral (α := α) ('n' :: 'u' :: 'l' :: 'l' :: rest) = .ok (.null, rest) := by
  have hc := collectLiteral_verbatim ['n', 'u', 'l', 'l'] "" rest (by decide) hstop
  rw [show 'n' :: 'u' :: 'l' :: 'l' :: rest = ['n', 'u', 'l', 'l'] ++ rest from rfl]
  simp only [tokenizeLiteral, hc]
  rfl

/-- Scanning the bareword `true`. -/
theorem tokenizeLiteral_true_block (rest : List Char) (hstop : litStop rest) :
    tokenizeLiteral (α := α) ('t' :: 'r' :: 'u' :: 'e' :: rest) = .ok (.true, rest) := by
  have hc := collectLiteral_verbatim ['t', 'r', 'u', 'e'] "" rest (by decide) hstop
  rw [show 't' :: 'r' :: 'u' :: 'e' :: rest = ['t', 'r', 'u', 'e'] ++ rest from rfl]
  simp only [tokenizeLiteral, hc]
  rfl

/-- Scanning the bareword `false`. -/
theorem tokenizeLiteral_false_block (rest : List Char) (hstop : litStop rest) :
    tokenizeLiteral (α := α) ('f' :: 'a' :: 'l' :: 's' :: 'e' :: rest) =
      .ok (.false, rest) := by
  have hc := collectLiteral_verbatim ['f', 'a', 'l', 's', 'e'] "" rest (by decide) hstop
  rw [show 'f' :: 'a' :: 'l' :: 's' :: 'e' :: rest = ['f', 'a', 'l', 's', 'e'] ++ rest
    from rfl]
  simp only [tokenizeLiteral, hc]
  rfl

/-- Dispatch of the main scanning loop into the bareword sub-scanner. -/
theorem tokenizeChars_literal_block (pf : String → Option α) (c : Char)
    (cs rest : List Char) (t : JsonToken α)
    (hw : isJsonWhitespace c = false) (h1 : c ≠ '[') (h2 : c ≠ '\x7b')
    (h3 : c ≠ ']') (h4 : c ≠ '\x7d') (h5 : c ≠ ':') (h6 : c ≠ ',')
    (h7 : c ≠ '"') (hn : (c == '-' || isDigitChar c) = false)
    (hlit : tokenizeLiteral (c :: cs) = .ok (t, rest)) :
    tokenizeChars pf (c :: cs) = consTok t (tokenizeChars pf rest) := by
  rw [tokenizeChars.eq_def]
  simp only [hw, Bool.false_eq_true, if_false, if_neg h1, if_neg h2, if_neg h3,
    if_neg h4, if_neg h5, if_neg h6, if_neg h7, hn, dite_false]
  split
  · rename_i t0 rest0 heq
    rw [hlit] at heq
    simp only [TRes.ok.injEq, Prod.mk.injEq] at heq
    obtain ⟨rfl, rfl⟩ := heq
    rfl
  · rename_i e heq
    rw [hlit] at heq
    exact absurd heq (by simp)
  · rename_i heq
    rw [hlit] at heq
    exact absurd heq (by simp)

/-- Scanning `null` followed by a delimiter. -/
theorem tokenizeChars_null (pf : String → Option α) (rest : List Char)
    (hstop : litStop rest) :
    tokenizeChars pf ("null".data ++ rest) = consTok .null (tokenizeChars pf rest) := by
  rw [show ("null".data ++ rest) = 'n' :: ('u' :: 'l' :: 'l' :: rest) from rfl]
  exact tokenizeChars_literal_block pf 'n' _ rest .null (by decide) (by decide)
    (by decide) (by decide) (by decide) (by decide) (by decide) (by decide)
    (by decide) (tokenizeLiteral_null_block rest hstop)

/-- Scanning `true` followed by a delimiter. -/
theorem tokenizeChars_true (pf : String → Option α) (rest : List Char)
    (hstop : litStop rest) :
    tokenizeChars pf ("true".data ++ rest) = consTok .true (tokenizeChars pf rest) := by
  rw [show ("true".data ++ rest) = 't' :: ('r' :: 'u' :: 'e' :: rest) from rfl]
  exact tokenizeChars_literal_block pf 't' _ rest .true (by decide) (by decide)
    (by decide) (by decide) (by decide) (by decide) (by decide) (by decide)
    (by decide) (tokenizeLiteral_true_block rest hstop)

/-- Scanning `false` followed by a delimiter. -/
theorem tokenizeChars_false (pf : String → Option α) (rest : List Char)
    (hstop : litStop rest) :
    tokenizeChars pf ("false".data ++ rest) = consTok .false (tokenizeChars pf rest) := by
  rw [show ("false".data ++ rest) = 'f' :: ('a' :: 'l' :: 's' :: 'e' :: rest) from rfl]
  exact tokenizeChars_literal_block pf 'f' _ rest .false (by decide) (by decide)
    (by decide) (by decide) (by decide) (by decide) (by decide) (by decide)
    (by decide) (tokenizeLiteral_false_block rest hstop)

/-- Unpacking `strNoSpecial`. -/
theorem strNoSpecial_spec {s : String} (h : strNoSpecial s = true) :
    ∀ c ∈ s.data, c ≠ '"' ∧ c ≠ '\\' := by
  intro c hc
  simp only [strNoSpecial, List.all_eq_true] at h
  have := h c hc
  simp only [Bool.and_eq_true, bne_iff_ne] at this
  exact this

/-- Unpacking `numReparses`. -/
theorem numReparses_spec [DecidableEq α] {pf : String → Option α}
    {nts : α → String} {n : α} (h : numReparses pf nts n = true) :
    ∃ (c : Char) (cs' : List Char), (nts n).data = c :: cs' ∧
      (c == '-' || isDigitChar c) = true ∧
      (∀ x ∈ (nts n).data, isNumberChar x = true) ∧
      pf (nts n) = some n := by
  rcases hd : (nts n).data with - | ⟨c, cs'⟩
  · rw [numReparses, hd] at h
    simp at h
  · rw [numReparses] at h
    rw [hd] at h
    simp only [Bool.and_eq_true, decide_eq_true_eq, List.all_eq_true] at h
    exact ⟨c, cs', rfl, h.1.1, h.1.2, h.2⟩

/-- Size-bounded package: scanning the rendering of a round-trip-safe value,
followed by a delimiter and a tail that scans to `ts`, produces exactly the
value's token sequence followed by `ts`; with the two statements for
non-empty element and member lists needed by the containers. -/
theorem tok_fmt_aux [DecidableEq α] (pf : String → Option α) (nts : α → String) :
    ∀ n : Nat,
      (∀ v : JsonValue α, sizeOf v ≤ n →
        ∀ (i : Nat) (rest : List Char) (ts : List (JsonToken α)),
        safeVal pf nts v = true → DelimChars rest →
        tokenizeChars pf rest = .ok ts →
        tokenizeChars pf ((fmtV nts v i).data ++ rest) = .ok (tokensOf v ++ ts)) ∧
      (∀ l : List (JsonValue α), sizeOf l ≤ n →
        ∀ (i : Nat) (rest : List Char) (ts : List (JsonToken α)),
        safeItems pf nts l = true → l ≠ [] → DelimChars rest →
        tokenizeChars pf rest = .ok ts →
        tokenizeChars pf ((joinSep ",\n" (fmtVItems nts l i)).data ++ rest) =
          .ok (tokensOfItems l ++ ts)) ∧
      (∀ l : List (String × JsonValue α), sizeOf l ≤ n →
        ∀ (i : Nat) (rest : List Char) (ts : List (JsonToken α)),
        safeMembers pf nts l = true → l ≠ [] → DelimChars rest →
        tokenizeChars pf rest = .ok ts →
        tokenizeChars pf ((joinSep ",\n" (fmtVEntries nts l i)).data ++ rest) =
          .ok (tokensOfMembers l ++ ts)) := by
  intro n
  induction n with
  | zero =>
    refine ⟨fun v hv => absurd hv ?_, fun l hl => absurd hl ?_, fun l hl => absurd hl ?_⟩
    · cases v <;> simp
    · cases l <;> simp
    · cases l <;> simp
  | succ n ih =>
    obtain ⟨ihv, ihi, ihm⟩ := ih
    refine ⟨?_, ?_, ?_⟩
    · intro v hv i rest ts hsafe hdelim hts
      match v with
      | .null =>
        rw [show fmtV nts JsonValue.null i = "null" from rfl]
        rw [tokenizeChars_null pf rest hdelim.toLitStop, hts]
        rfl
      | .bool false =>
        rw [show fmtV nts (JsonValue.bool false) i = "false" from rfl]
        rw [tokenizeChars_false pf rest hdelim.toLitStop, hts]
        rfl
      | .bool true =>
        rw [show fmtV nts (JsonValue.bool true) i = "true" from rfl]
        rw [tokenizeChars_true pf rest hdelim.toLitStop, hts]
        rfl
      | .number m =>
        have hnum : numReparses pf nts m = true := by
          simpa [safeVal] using hsafe
        obtain ⟨c, cs', hd, hhead, hall, hp⟩ := numReparses_spec hnum
        rw [show fmtV nts (JsonValue.number m) i = nts m from rfl, hd]
        rw [tokenizeChars_number_block pf c cs' rest m hhead (hd ▸ hall)
          hdelim.toNumStop (show pf ⟨c :: cs'⟩ = some m from by rw [← hd]; exact hp)]
        rw [hts]
        rfl
      | .string str =>
        have hns : strNoSpecial str = true := by
          simpa [safeVal] using hsafe
        rw [show fmtV nts (JsonValue.string str) i = "\"" ++ str ++ "\"" from rfl]
        rw [show ("\"" ++ str ++ "\"").data ++ rest = '"' :: (str.data ++ ('"' :: rest))
          from by simp [String.data_append]]
        rw [tokenizeChars_cons_quote pf _ str rest
          (tokenizeString_verbatim str.data "" rest (strNoSpecial_spec hns))]
        rw [hts]
        rfl
      | .array [] =>
        rw [show (fmtV nts (JsonValue.array []) i).data ++ rest = '[' :: (']' :: rest)
          from rfl]
        rw [tokenizeChars_cons_lsb, tokenizeChars_cons_rsb, hts]
        rfl
      | .array (w :: tl) =>
        have hsafe' : safeItems pf nts (w :: tl) = true := by
          simpa [safeVal] using hsafe
        have hfv : fmtV nts (JsonValue.array (w :: tl)) i =
            "[\n" ++ joinSep ",\n" (fmtVItems nts (w :: tl) i) ++ "\n" ++
              strRepeat "  " (i - 1) ++ "]" := by
          simp [fmtV]
        rw [hfv]
        rw [show ("[\n" ++ joinSep ",\n" (fmtVItems nts (w :: tl) i) ++ "\n" ++
            strRepeat "  " (i - 1) ++ "]").data ++ rest =
            '[' :: '\n' :: ((joinSep ",\n" (fmtVItems nts (w :: tl) i)).data ++
              ('\n' :: ((strRepeat "  " (i - 1)).data ++ (']' :: rest))))
          from by simp [String.data_append]]
        rw [tokenizeChars_cons_lsb, tokenizeChars_cons_ws pf '\n' _ (by decide)]
        have hts2 : tokenizeChars pf
            ('\n' :: ((strRepeat "  " (i - 1)).data ++ (']' :: rest))) =
            .ok (.rightSquareBracket :: ts) := by
          rw [tokenizeChars_cons_ws pf '\n' _ (by decide), tokenizeChars_indent,
            tokenizeChars_cons_rsb, hts]
          rfl
        have hsz : sizeOf (w :: tl) ≤ n := by
          simp at hv ⊢
          omega
        rw [ihi (w :: tl) hsz i _ (.rightSquareBracket :: ts) hsafe' (by simp)
          (by simp [DelimChars]) hts2]
        simp [tokensOf, consTok, List.append_assoc]
      | .object [] =>
        rw [show (fmtV nts (JsonValue.object []) i).data ++ rest =
          '\x7b' :: ('\x7d' :: rest) from rfl]
        rw [tokenizeChars_cons_lcb, tokenizeChars_cons_rcb, hts]
        rfl
      | .object (m0 :: tl) =>
        have hsafe' : safeMembers pf nts (m0 :: tl) = true := by
          simpa [safeVal] using hsafe
        have hfv : fmtV nts (JsonValue.object (m0 :: tl)) i =
            "\x7b\n" ++ joinSep ",\n" (fmtVEntries nts (m0 :: tl) i) ++ "\n" ++
              strRepeat "  " (i - 1) ++ "\x7d" := by
          simp [fmtV]
        rw [hfv]
        rw [show ("\x7b\n" ++ joinSep ",\n" (fmtVEntries nts (m0 :: tl) i) ++ "\n" ++
            strRepeat "  " (i - 1) ++ "\x7d").data ++ rest =
            '\x7b' :: '\n' :: ((joinSep ",\n" (fmtVEntries nts (m0 :: tl) i)).data ++
              ('\n' :: ((strRepeat "  " (i - 1)).data ++ ('\x7d' :: rest))))
          from by simp [String.data_append]]
        rw [tokenizeChars_cons_lcb, tokenizeChars_cons_ws pf '\n' _ (by decide)]
        have hts2 : tokenizeChars pf
            ('\n' :: ((strRepeat "  " (i - 1)).data ++ ('\x7d' :: rest))) =
            .ok (.rightCurlyBracket :: ts) := by
          rw [tokenizeChars_cons_ws pf '\n' _ (by decide), tokenizeChars_indent,
            tokenizeChars_cons_rcb, hts]
          rfl
        have hsz : sizeOf (m0 :: tl) ≤ n := by
          simp at hv ⊢
          omega
        rw [ihm (m0 :: tl) hsz i _ (.rightCurlyBracket :: ts) hsafe' (by simp)
          (by simp [DelimChars]) hts2]
        simp [tokensOf, consTok, List.append_assoc]
    · intro l hl i rest ts hsafe hne hdelim hts
      match l with
      | [] => exact absurd rfl hne
      | [w] =>
        have hsw : safeVal pf nts w = true := by
          simpa [safeItems] using hsafe
        rw [show joinSep ",\n" (fmtVItems nts [w] i) =
          strRepeat "  " i ++ fmtV nts w (i + 1) from rfl]
        rw [show (strRepeat "  " i ++ fmtV nts w (i + 1)).data ++ rest =
            (strRepeat "  " i).data ++ ((fmtV nts w (i + 1)).data ++ rest)
          from by simp [String.data_append]]
        rw [tokenizeChars_indent]
        have hszw : sizeOf w ≤ n := by
          simp at hl ⊢
          omega
        rw [ihv w hszw (i + 1) rest ts hsw hdelim hts]
        rfl
      | w :: w2 :: tl =>
        have hsw : safeVal pf nts w = true := by
          have := hsafe
          simp only [safeItems, Bool.and_eq_true] at this
          exact this.1
        have hsafe2 : safeItems pf nts (w2 :: tl) = true := by
          have := hsafe
          simp only [safeItems, Bool.and_eq_true] at this
          simp [safeItems, this.2.1, this.2.2]
        rw [show joinSep ",\n" (fmtVItems nts (w :: w2 :: tl) i) =
          (strRepeat "  " i ++ fmtV nts w (i + 1)) ++ ",\n" ++
            joinSep ",\n" (fmtVItems nts (w2 :: tl) i) from rfl]
        rw [show ((strRepeat "  " i ++ fmtV nts w (i + 1)) ++ ",\n" ++
            joinSep ",\n" (fmtVItems nts (w2 :: tl) i)).data ++ rest =
            (strRepeat "  " i).data ++ ((fmtV nts w (i + 1)).data ++
              (',' :: '\n' :: ((joinSep ",\n" (fmtVItems nts (w2 :: tl) i)).data ++ rest)))
          from by simp [String.data_append]]
        rw [tokenizeChars_indent]
        have hsz2 : sizeOf (w2 :: tl) ≤ n := by
          simp at hl ⊢
          omega
        have hszw : sizeOf w ≤ n := by
          simp at hl ⊢
          omega
        have hts1 : tokenizeChars pf
            (',' :: '\n' :: ((joinSep ",\n" (fmtVItems nts (w2 :: tl) i)).data ++ rest)) =
            .ok (.comma :: (tokensOfItems (w2 :: tl) ++ ts)) := by
          rw [tokenizeChars_cons_comma, tokenizeChars_cons_ws pf '\n' _ (by decide)]
          rw [ihi (w2 :: tl) hsz2 i rest ts hsafe2 (by simp) hdelim hts]
          rfl
        rw [ihv w hszw (i + 1) _ (.comma :: (tokensOfItems (w2 :: tl) ++ ts)) hsw
          (by simp [DelimChars]) hts1]
        rw [tokensOfItems_eq w (w2 :: tl)]
        simp [itemsSep, tokensOfItems_eq w2 tl, List.append_assoc]
    · intro l hl i rest ts hsafe hne hdelim hts
      match l with
      | [] => exact absurd rfl hne
      | [(k, w)] =>
        have hsk : strNoSpecial k = true ∧ safeVal pf nts w = true := by
          have := hsafe
          simp only [safeMembers, Bool.and_eq_true] at this
          exact ⟨this.1.1, this.1.2⟩
        rw [show joinSep ",\n" (fmtVEntries nts [(k, w)] i) =
          strRepeat "  " i ++ "\"" ++ k ++ "\": " ++ fmtV nts w (i + 1) from rfl]
        rw [show (strRepeat "  " i ++ "\"" ++ k ++ "\": " ++ fmtV nts w (i + 1)).data ++
            rest =
            (strRepeat "  " i).data ++ ('"' :: (k.data ++ ('"' :: (':' :: ' ' ::
              ((fmtV nts w (i + 1)).data ++ rest)))))
          from by simp [String.data_append]]
        rw [tokenizeChars_indent]
        rw [tokenizeChars_cons_quote pf _ k _
          (tokenizeString_verbatim k.data "" _ (strNoSpecial_spec hsk.1))]
        have hszw : sizeOf w ≤ n := by
          simp at hl ⊢
          omega
        have hts1 : tokenizeChars pf (':' :: ' ' ::
            ((fmtV nts w (i + 1)).data ++ rest)) =
            .ok (.colon :: (tokensOf w ++ ts)) := by
          rw [tokenizeChars_cons_colon, tokenizeChars_cons_ws pf ' ' _ (by decide)]
          rw [ihv w hszw (i + 1) rest ts hsk.2 hdelim hts]
          rfl
        rw [hts1]
        rfl
      | (k, w) :: m2 :: tl =>
        have hsk : strNoSpecial k = true ∧ safeVal pf nts w = true ∧
            safeMembers pf nts (m2 :: tl) = true := by
          have := hsafe
          simp only [safeMembers, Bool.and_eq_true] at this
          refine ⟨this.1.1, this.1.2, ?_⟩
          match m2 with
          | (k2, w2) => simp [safeMembers, this.2.1, this.2.2]
        rw [show joinSep ",\n" (fmtVEntries nts ((k, w) :: m2 :: tl) i) =
          (strRepeat "  " i ++ "\"" ++ k ++ "\": " ++ fmtV nts w (i + 1)) ++ ",\n" ++
            joinSep ",\n" (fmtVEntries nts (m2 :: tl) i) from ?_]
        rotate_left
        · match m2 with
          | (k2, w2) => rfl
        rw [show ((strRepeat "  " i ++ "\"" ++ k ++ "\": " ++ fmtV nts w (i + 1)) ++
            ",\n" ++ joinSep ",\n" (fmtVEntries nts (m2 :: tl) i)).data ++ rest =
            (strRepeat "  " i).data ++ ('"' :: (k.data ++ ('"' :: (':' :: ' ' ::
              ((fmtV nts w (i + 1)).data ++ (',' :: '\n' ::
                ((joinSep ",\n" (fmtVEntries nts (m2 :: tl) i)).data ++ rest)))))))
          from by simp [String.data_append]]
        rw [tokenizeChars_indent]
        rw [tokenizeChars_cons_quote pf _ k _
          (tokenizeString_verbatim k.data "" _ (strNoSpecial_spec hsk.1))]
        have hszw : sizeOf w ≤ n := by
          simp at hl ⊢
          omega
        have hsz2 : sizeOf (m2 :: tl) ≤ n := by
          simp at hl ⊢
          omega
        have hts2 : tokenizeChars pf (',' :: '\n' ::
            ((joinSep ",\n" (fmtVEntries nts (m2 :: tl) i)).data ++ rest)) =
            .ok (.comma :: (tokensOfMembers (m2 :: tl) ++ ts)) := by
          rw [tokenizeChars_cons_comma, tokenizeChars_cons_ws pf '\n' _ (by decide)]
          rw [ihm (m2 :: tl) hsz2 i rest ts hsk.2.2 (by simp) hdelim hts]
          rfl
        have hts1 : tokenizeChars pf (':' :: ' ' ::
            ((fmtV nts w (i + 1)).data ++ (',' :: '\n' ::
              ((joinSep ",\n" (fmtVEntries nts (m2 :: tl) i)).data ++ rest)))) =
            .ok (.colon :: (tokensOf w ++ (.comma :: (tokensOfMembers (m2 :: tl) ++ ts)))) := by
          rw [tokenizeChars_cons_colon, tokenizeChars_cons_ws pf ' ' _ (by decide)]
          rw [ihv w hszw (i + 1) _ (.comma :: (tokensOfMembers (m2 :: tl) ++ ts)) hsk.2.1
            (by simp [DelimChars]) hts2]
          rfl
        rw [hts1]
        match m2 with
        | (k2, w2) =>
          rw [tokensOfMembers_eq k w ((k2, w2) :: tl)]
          simp [membersSep, consTok, tokensOfMembers_eq k2 w2 tl, List.append_assoc]

/-- `formatEntries` always succeeds, producing the rendered member list. -/
theorem formatEntries_eq_fmt (nts : α → String)
    (l : List (String × JsonValue α)) (i : Nat) :
    formatEntries nts l i = some (fmtVEntries nts l i) :=
  (format_eq_fmt_aux nts (sizeOf l)).2.1 l i (Nat.le_refl _)

/-- `formatItems` always succeeds, producing the rendered element list. -/
theorem formatItems_eq_fmt (nts : α → String) (l : List (JsonValue α)) (i : Nat) :
    formatItems nts l i = some (fmtVItems nts l i) :=
  (format_eq_fmt_aux nts (sizeOf l)).2.2 l i (Nat.le_refl _)

/-- The rendered member list is the `map` the source writes. -/
theorem fmtVEntries_eq_map (nts : α → String) :
    ∀ (l : List (String × JsonValue α)) (i : Nat),
      fmtVEntries nts l i =
        l.map fun kv => strRepeat "  " i ++ "\"" ++ kv.1 ++ "\": " ++ fmtV nts kv.2 (i + 1)
  | [], _ => rfl
  | (k, v) :: rest, i => by
    simp [fmtVEntries, fmtVEntries_eq_map nts rest i]

/-- The rendered element list is the `map` the source writes. -/
theorem fmtVItems_eq_map (nts : α → String) :
    ∀ (l : List (JsonValue α)) (i : Nat),
      fmtVItems nts l i = l.map fun v => strRepeat "  " i ++ fmtV nts v (i + 1)
  | [], _ => rfl
  | v :: rest, i => by
    simp [fmtVItems, fmtVItems_eq_map nts rest i]

/-- Tokenizing the rendering of a round-trip-safe value yields exactly its
token sequence. -/
theorem tokenize_fmt [DecidableEq α] (pf : String → Option α) (nts : α → String)
    (v : JsonValue α) (hsafe : safeVal pf nts v = true) :
    tokenize pf (fmtV nts v 1) = .ok (tokensOf v) := by
  have hnil : tokenizeChars pf ([] : List Char) = .ok [] :=
    (tokenizeCharsFuel_eq pf 1 [] (Nat.lt_succ_self 0)).symm.trans rfl
  have h := (tok_fmt_aux pf nts (sizeOf v)).1 v (Nat.le_refl _) 1 [] [] hsafe
    trivial hnil
  rw [List.append_nil, List.append_nil] at h
  exact h

/-! ## The claims -/

/-- C2 (code bug in the source): an unterminated string literal is silently
accepted, not rejected.  The `while let` scanning loop of `tokenize_string`
falls through at end of input and returns `Ok` with the accumulated payload:
tokenizing the four-character input `"abc`, whose opening double quote is
never matched by a closing quote, yields `Ok([String("abc")])` — not the
`Err(UnexpectedEndOfInput)` the specification states. -/
theorem claim_C2_unterminated_string_accepted (β : Type) (pf : String → Option β) :
    tokenize pf "\"abc" = .ok [.string "abc"] :=
  (tokenize_eval pf _).trans rfl

/-- C3 (code bug in the source): when the four characters collected after a
backslash-u escape are not all hex digits, `tokenize_string` does not return
`Err(InvalidEscapeCharacter)` as the specification states: the
`u32::from_str_radix(&hex_chars, 16).unwrap()` call panics.  Tokenizing the
input `"\uzzzz"` crashes instead of returning an error value. -/
theorem claim_C3_nonhex_unicode_escape_panics (β : Type) (pf : String → Option β) :
    tokenize pf "\"\\uzzzz\"" = .panicked :=
  (tokenize_eval pf _).trans rfl

/-- C1 counterexample: `format_json` does not return a `Result`.  At input
`x` tokenization fails with `UnexpectedLiteral("x")`, and `format_json`
terminates the process via `std::process::exit(1)` instead of returning an
`Err` carrying the `Error` tagged union (which `format_json` never uses). -/
theorem claim_C1_counterexample :
    tokenize parseF64Int "x" = .error (.unexpectedLiteral "x") ∧
      format_json parseF64Int intToString "x" = .exit 1 := by
  have h1 : tokenize parseF64Int "x" = .error (.unexpectedLiteral "x") :=
    (tokenize_eval parseF64Int _).trans rfl
  exact ⟨h1, by simp only [format_json, h1]⟩

/-- C1 amended: `format_json` returns the formatted text on success; when
tokenization or parsing fails it prints a diagnostic and terminates the
process with exit code 1 — the error is not an ordinary return value, and
the `Error` tagged union of src/error.rs is not used by it. -/
theorem claim_C1_exit_on_error (β : Type) (pf : String → Option β)
    (nts : β → String) (content : String) :
    (∀ e, tokenize pf content = .error e → format_json pf nts content = .exit 1) ∧
    (∀ ts e, tokenize pf content = .ok ts → parser ts = .error e →
      format_json pf nts content = .exit 1) ∧
    (∀ ts v, tokenize pf content = .ok ts → parser ts = .ok v →
      format_json pf nts content = .ok (fmtV nts v 1)) := by
  refine ⟨?_, ?_, ?_⟩
  · intro e he
    simp only [format_json, he]
  · intro ts e hts hp
    simp only [format_json, hts, hp]
  · intro ts v hts hp
    simp only [format_json, hts, hp, format_eq_fmt]

theorem claim_C1_exit_on_error_witness :
    format_json parseF64Int intToString "x" = .exit 1 ∧
      format_json parseF64Int intToString "[" = .exit 1 ∧
      format_json parseF64Int intToString "true" = .ok "true" := by
  refine ⟨(claim_C1_exit_on_error Int parseF64Int intToString "x").1
      (.unexpectedLiteral "x") ((tokenize_eval parseF64Int _).trans rfl),
    (claim_C1_exit_on_error Int parseF64Int intToString "[").2.1
      [.leftSquareBracket] .unexpectedEndOfInput
      ((tokenize_eval parseF64Int _).trans rfl) rfl,
    (claim_C1_exit_on_error Int parseF64Int intToString "true").2.2
      [.true] (.bool true) ((tokenize_eval parseF64Int _).trans rfl) rfl⟩

/-- C5: the formatter is total: `format_value` (and hence `format`) succeeds
on every value of every variant, and the container helpers succeed on every
value of their matching variant — their panic branches are unreachable from
`format`. -/
theorem claim_C5_formatter_total (β : Type) (nts : β → String) (v : JsonValue β)
    (i : Nat) :
    (∃ s, formatValue nts v i = some s) ∧ (∃ s, format nts v = some s) ∧
    (∀ entries : List (String × JsonValue β),
      ∃ s, formatObject nts (.object entries) i = some s) ∧
    (∀ vs : List (JsonValue β), ∃ s, formatArray nts (.array vs) i = some s) := by
  refine ⟨⟨fmtV nts v i, formatValue_eq_fmt nts v i⟩,
    ⟨fmtV nts v 1, format_eq_fmt nts v⟩, ?_, ?_⟩
  · intro entries
    have h := formatValue_eq_fmt nts (.object entries) i
    rw [formatValue.eq_def] at h
    exact ⟨_, h⟩
  · intro vs
    have h := formatValue_eq_fmt nts (.array vs) i
    rw [formatValue.eq_def] at h
    exact ⟨_, h⟩

/-- C6: a non-empty object (respectively array) renders as the opening brace
(bracket), newline, each child on its own line prefixed by `indent_level`
copies of two spaces (object entries as quoted key, colon, space, value at
level + 1), children joined by comma-newline, a final newline,
`indent_level - 1` copies of two spaces, and the closing brace (bracket);
empty containers render with no newline or indentation; and the concrete
tree of the claim renders to exactly the stated text (with `1` for the
`f64` value `1.0`, as Rust's display of that value). -/
theorem claim_C6_container_rendering (β : Type) (nts : β → String) :
    (∀ (entries : List (String × JsonValue β)) (i : Nat), entries ≠ [] →
      formatObject nts (.object entries) i =
        some ("\x7b\n" ++
          joinSep ",\n" (entries.map fun kv =>
            strRepeat "  " i ++ "\"" ++ kv.1 ++ "\": " ++ fmtV nts kv.2 (i + 1)) ++
          "\n" ++ strRepeat "  " (i - 1) ++ "\x7d")) ∧
    (∀ (vs : List (JsonValue β)) (i : Nat), vs ≠ [] →
      formatArray nts (.array vs) i =
        some ("[\n" ++
          joinSep ",\n" (vs.map fun v => strRepeat "  " i ++ fmtV nts v (i + 1)) ++
          "\n" ++ strRepeat "  " (i - 1) ++ "]")) ∧
    (format intToString
        (.object [("a", .number 1), ("b", .array [.bool true])]) =
      some "\x7b\n  \"a\": 1,\n  \"b\": [\n    true\n  ]\n\x7d") ∧
    (format nts (.object []) = some "\x7b\x7d") ∧
    (format nts (.array []) = some "[]") := by
  refine ⟨?_, ?_, ?_, ?_, ?_⟩
  · intro entries i hne
    rw [formatObject.eq_def]
    simp [formatEntries_eq_fmt, fmtVEntries_eq_map, hne]
  · intro vs i hne
    rw [formatArray.eq_def]
    simp [formatItems_eq_fmt, fmtVItems_eq_map, hne]
  · exact (format_eq_fmt intToString _).trans rfl
  · exact format_eq_fmt nts _
  · exact format_eq_fmt nts _

theorem claim_C6_container_rendering_witness :
    formatObject intToString (.object [("a", (.null : JsonValue Int))]) 1 =
        some "\x7b\n  \"a\": null\n\x7d" ∧
      formatArray intToString (.array [(.bool true : JsonValue Int)]) 1 =
        some "[\n  true\n]" := by
  refine ⟨((claim_C6_container_rendering Int intToString).1 [("a", .null)] 1
      (by simp)).trans rfl,
    ((claim_C6_container_rendering Int intToString).2.1 [.bool true] 1
      (by simp)).trans rfl⟩

/-- C4: round trip: for every value tree whose strings and keys contain no
unescaped special characters (no double quote, no backslash) and whose
numbers re-parse bit-exactly — the claim's own provisos — formatting
succeeds, tokenizing the formatted text succeeds, and parsing the resulting
tokens reproduces exactly the same value tree. -/
theorem claim_C4_roundtrip (β : Type) [DecidableEq β] (pf : String → Option β)
    (nts : β → String) (v : JsonValue β) (hsafe : safeVal pf nts v = true) :
    ∃ (text : String) (ts : List (JsonToken β)),
      format nts v = some text ∧ tokenize pf text = .ok ts ∧ parser ts = .ok v :=
  ⟨fmtV nts v 1, tokensOf v, format_eq_fmt nts v, tokenize_fmt pf nts v hsafe,
    parser_tokensOf v⟩

theorem claim_C4_roundtrip_witness :
    safeVal parseF64Int intToString
        (JsonValue.object [("a", .number 1), ("b", .array [.bool true])]) = true ∧
      ∃ (text : String) (ts : List (JsonToken Int)),
        format intToString
            (JsonValue.object [("a", .number 1), ("b", .array [.bool true])]) =
          some text ∧
        tokenize parseF64Int text = .ok ts ∧
        parser ts = .ok (JsonValue.object [("a", .number 1), ("b", .array [.bool true])]) :=
  ⟨by decide, claim_C4_roundtrip Int parseF64Int intToString _ (by decide)⟩

/-- C7: trailing commas are rejected: in the array element loop a comma
followed immediately by `]` makes the recursive value parse report
`UnexpectedToken(])`, in the object member loop a comma followed immediately
by `\x7d` reports `UnexpectedToken(\x7d)`, and parsing the token sequence
of `[1,]` yields `UnexpectedToken(])` for the `]` after the comma. -/
theorem claim_C7_trailing_comma_rejected (β : Type) :
    (∀ (f : Nat) (acc : List (JsonValue β)) (rest : List (JsonToken β)),
      parserArrayLoop (f + 2) acc (.comma :: .rightSquareBracket :: rest) =
        .error (.unexpectedToken .rightSquareBracket)) ∧
    (∀ (f : Nat) (acc : List (String × JsonValue β)) (rest : List (JsonToken β)),
      parserObjectLoop (f + 1) acc (.comma :: .rightCurlyBracket :: rest) =
        .error (.unexpectedToken .rightCurlyBracket)) ∧
    (∀ n : β, parser [.leftSquareBracket, .number n, .comma, .rightSquareBracket] =
      .error (.unexpectedToken .rightSquareBracket)) := by
  refine ⟨?_, ?_, fun n => rfl⟩
  · intro f acc rest
    simp [parserArrayLoop, parserValue]
  · intro f acc rest
    simp [parserObjectLoop]

/-- C8: duplicate object keys are neither detected nor merged: the parser
returns every member of an object token sequence in parse order (stated for
the canonical token sequence of an arbitrary member list, duplicates
included), and parsing the token sequence of the text with two `"a"` keys
yields both members in order. -/
theorem claim_C8_duplicate_keys_preserved (β : Type) :
    (∀ entries : List (String × JsonValue β),
      parser (tokensOf (.object entries)) = .ok (.object entries)) ∧
    (∀ n1 n2 : β,
      parser [.leftCurlyBracket, .string "a", .colon, .number n1, .comma,
        .string "a", .colon, .number n2, .rightCurlyBracket] =
        .ok (.object [("a", .number n1), ("a", .number n2)])) :=
  ⟨fun entries => parser_tokensOf _, fun n1 n2 => rfl⟩

/-- C9: after a `String` key, `parser_object_key_value` requires a colon and
reports `UnexpectedEndOfInput` both when the next token is any other token
and when the tokens are exhausted — never `UnexpectedToken`; at whole-parser
level, the token sequence of an object member missing its colon also yields
`UnexpectedEndOfInput`. -/
theorem claim_C9_missing_colon_is_eoi (β : Type) :
    (∀ (f : Nat) (key : String) (t : JsonToken β) (ts : List (JsonToken β)),
      t ≠ .colon →
      parserObjectKeyValue (f + 1) (.string key :: t :: ts) =
        .error .unexpectedEndOfInput) ∧
    (∀ (f : Nat) (key : String),
      parserObjectKeyValue (f + 1) ([.string key] : List (JsonToken β)) =
        .error .unexpectedEndOfInput) ∧
    (∀ n : β, parser [.leftCurlyBracket, .string "a", .number n, .rightCurlyBracket] =
      .error .unexpectedEndOfInput) := by
  refine ⟨?_, fun f key => rfl, fun n => rfl⟩
  intro f key t ts ht
  cases t <;> first
    | exact absurd rfl ht
    | simp [parserObjectKeyValue]

theorem claim_C9_missing_colon_is_eoi_witness :
    parserObjectKeyValue 5
        [JsonToken.string "k", JsonToken.number (1 : Int)] =
      .error .unexpectedEndOfInput :=
  (claim_C9_missing_colon_is_eoi Int).1 4 "k" (.number 1) [] (by decide)

/-- C10: the parser accepts a prefix and silently ignores trailing tokens:
whenever a token sequence parses to a value, any extension of it by further
tokens parses to the same value with no exhaustion check; in particular the
token sequence of the text `true false` parses to `Bool(true)`. -/
theorem claim_C10_trailing_tokens_ignored (β : Type) :
    (∀ (ts extra : List (JsonToken β)) (v : JsonValue β),
      parser ts = .ok v → parser (ts ++ extra) = .ok v) ∧
    (parser ([.true, .false] : List (JsonToken β)) = .ok (.bool true)) := by
  refine ⟨?_, rfl⟩
  intro ts extra v h
  rcases hpv : parserValue (2 * ts.length + 2) ts with ⟨v0, rest0⟩ | e | -
  · have hv0 : v0 = v := by
      rw [parser, hpv] at h
      simpa using h
    subst hv0
    have hstep := (parser_mono_append_aux (2 * ts.length + 2)).1
      (2 * (ts ++ extra).length + 2)
      (by simp only [List.length_append]; omega) ts extra v0 rest0 hpv
    rw [parser, hstep]
  · rw [parser, hpv] at h
    simp at h
  · rw [parser, hpv] at h
    simp at h

theorem claim_C10_trailing_tokens_ignored_witness :
    parser (([.true] ++ [.false]) : List (JsonToken Int)) = .ok (.bool true) :=
  (claim_C10_trailing_tokens_ignored Int).1 [.true] [.false] (.bool true) rfl

end JsonFormatter
